import Mathlib

/-!
Shallow embedding of the Lorcana sealed-draft core (src/lib/random.ts,
src/lib/draft.ts, and the deck-import parser of SavedDecks.tsx) together
with theorems settling the spec claims about it.

Randomness is modelled by an explicit oracle: a list of natural numbers
consumed head-first, one entry per `Math.random()` call.  Every function
that draws randomness takes the remaining oracle and returns the unused
suffix, mirroring the sequential consumption in the JavaScript source.
An exhausted oracle yields 0, which is always a legal outcome, so the
embedding is total and every concrete run of the program corresponds to
some oracle value.
-/

namespace LorcanaDraft

/-- A card record (src/types.ts `Card`).  Only the fields the draft core
reads are carried; `cost` and `rarity` are optional exactly as in the
TypeScript type.  The `id` field is modelled as a natural number. -/
structure Card where
  id : Nat
  fullName : String
  color : String
  cost : Option Nat := none
  rarity : Option String := none
deriving DecidableEq, Repr

/-- A pack of remaining cards (src/types.ts `Pack`). -/
structure Pack where
  id : String
  cards : List Card
  removedLog : List Nat
deriving DecidableEq, Repr

/-- One round of the draft (src/types.ts `RoundState`). -/
structure RoundState where
  roundNumber : Nat
  packs : List Pack
  turn : Nat
deriving DecidableEq, Repr

/-- One entry of the pick log (src/types.ts `PickLogEntry`).  The source
stores `picked: Card`, but `pickCard` obtains it from `splice(cardIndex, 1)`,
which yields `undefined` when the index is out of range; the embedding
makes that possibility explicit with `Option Card`. -/
structure PickLogEntry where
  round : Nat
  turn : Nat
  packIndex : Nat
  picked : Option Card
  removedCounts : Nat
deriving DecidableEq, Repr

/-- The whole draft state (src/types.ts `DraftState`).  `undoBuffer`
recursively holds a snapshot of an earlier state, as in the source.
`picks` stores `Option Card` for the same reason as `PickLogEntry.picked`. -/
structure DraftState where
  masterCards : List Card
  rounds : List RoundState
  currentRound : Nat
  currentTurn : Nat
  picks : List (Option Card)
  log : List PickLogEntry
  isComplete : Bool
  undoBuffer : Option DraftState
deriving Repr

/-! ### src/lib/random.ts -/

/-- `randomInt(n)` = `Math.floor(Math.random() * n)`: a uniform draw in
`[0, n)` (and `0` when `n = 0`).  The oracle entry consumed by this call
determines the outcome; any value in `[0, n)` is realisable. -/
def randomInt (n : Nat) (rs : List Nat) : Nat × List Nat :=
  (if n = 0 then 0 else rs.headD 0 % n, rs.tail)

/-- The inline coin `Math.random() < 0.5` used by `pickCard`'s removal
loop: consumes one oracle entry; an even entry models a draw below 0.5. -/
def randomBelowHalf (rs : List Nat) : Bool × List Nat :=
  (rs.headD 0 % 2 == 0, rs.tail)

/-- The loop body of `sampleWithoutReplacement`: runs `fuel` times, each
time drawing `randomInt(copy.length)`, moving `copy[idx]` to the result
(`splice(idx, 1)` = `eraseIdx idx`).  `fuel` is `min k arr.length`, so
`copy` never runs out before the fuel does. -/
def sampleLoop : Nat → List Card → List Nat → List Card × List Nat
  | 0, _, rs => ([], rs)
  | _ + 1, [], rs => ([], rs)
  | fuel + 1, x :: xs, rs =>
    let copy := x :: xs
    let draw := randomInt copy.length rs
    let rest := sampleLoop fuel (copy.eraseIdx draw.1) draw.2
    (copy.getD draw.1 x :: rest.1, rest.2)

/-- `sampleWithoutReplacement(arr, k)`: sample `min k arr.length` items
from `arr` without replacement. -/
def sampleWithoutReplacement (arr : List Card) (k : Nat) (rs : List Nat) :
    List Card × List Nat :=
  sampleLoop (min k arr.length) arr rs

/-- `deepClone` is a JSON round-trip in the source; on the plain records
modelled here it is the identity. -/
def deepClone {α : Type} (x : α) : α := x

/-! ### src/lib/draft.ts -/

/-- `getRarityValue`: numeric rarity rank.  `!rarity` in JavaScript is
true for both `undefined` and the empty string; unknown labels fall to
the `|| 0` default. -/
def getRarityValue (rarity : Option String) : Nat :=
  match rarity with
  | none => 0
  | some r =>
    if r = "" then 0
    else if r = "Common" then 1
    else if r = "Uncommon" then 2
    else if r = "Rare" then 3
    else if r = "Super Rare" then 4
    else if r = "Legendary" then 5
    else if r = "Epic" then 6
    else if r = "Iconic" then 7
    else if r = "Enchanted" then 8
    else if r = "Special" then 9
    else 0

/-- One iteration of the `forEach` of `findRarestCardIndex`: a strictly
larger rarity resets the candidate indices, an equal one appends, a
smaller one is ignored. -/
def rarestStep (acc : Int × List Nat) (p : Nat × Card) : Int × List Nat :=
  let v : Int := (getRarityValue p.2.rarity : Int)
  if acc.1 < v then (v, [p.1])
  else if v = acc.1 then (acc.1, acc.2 ++ [p.1])
  else acc

/-- The `forEach` scan of `findRarestCardIndex`: returns the running
maximum rarity (started at `-1`) and the indices attaining it, in order. -/
def rarestScan (cards : List Card) : Int × List Nat :=
  cards.enum.foldl rarestStep (-1, [])

/-- `findRarestCardIndex`: `-1` on an empty pack, else an index of
maximal rarity, a tie among several candidates being broken by one
`randomInt` draw. -/
def findRarestCardIndex (cards : List Card) (rs : List Nat) : Int × List Nat :=
  if cards.length = 0 then (-1, rs)
  else
    let rarestIndices := (rarestScan cards).2
    if rarestIndices.length = 1 then ((rarestIndices.headD 0 : Int), rs)
    else
      let draw := randomInt rarestIndices.length rs
      ((rarestIndices.getD draw.1 0 : Int), draw.2)

/-- The `for (let i = 1; i <= 6; i++)` pack-building loop of
`createRound`, generalised over the remaining iteration count `n`. -/
def mkPacks (roundNumber : Nat) (masterCards : List Card) :
    Nat → Nat → List Nat → List Pack × List Nat
  | 0, _, rs => ([], rs)
  | n + 1, i, rs =>
    let draw := sampleWithoutReplacement masterCards 12 rs
    let rest := mkPacks roundNumber masterCards n (i + 1) draw.2
    ({ id := "R" ++ toString roundNumber ++ "P" ++ toString i,
       cards := draw.1, removedLog := [] } :: rest.1, rest.2)

/-- `createRound`: six packs of 12 cards each, sampled independently
from the master pool. -/
def createRound (roundNumber : Nat) (masterCards : List Card) (rs : List Nat) :
    RoundState × List Nat :=
  let built := mkPacks roundNumber masterCards 6 1 rs
  ({ roundNumber := roundNumber, packs := built.1, turn := 1 }, built.2)

/-- `createNewDraft`: round 1 built, counters at 1, everything else empty. -/
def createNewDraft (masterCards : List Card) (rs : List Nat) :
    DraftState × List Nat :=
  let r1 := createRound 1 masterCards rs
  ({ masterCards := masterCards, rounds := [r1.1], currentRound := 1,
     currentTurn := 1, picks := [], log := [], isComplete := false,
     undoBuffer := none }, r1.2)

/-- `getActivePackIndex(turn) = (turn - 1) % 6` (0-based). -/
def getActivePackIndex (turn : Nat) : Nat := (turn - 1) % 6

/-- Default used where JavaScript would read an out-of-range array
element and crash; theorems carry shape hypotheses that keep every
access in range, so this value never reaches any conclusion. -/
def emptyCard : Card := { id := 0, fullName := "", color := "" }

/-- See `emptyCard`. -/
def emptyPack : Pack := { id := "", cards := [], removedLog := [] }

/-- The rarity rank of the card at position `j` of a pack, as the
integer the scan compares. -/
def rarityAt (cards : List Card) (j : Nat) : Int :=
  (getRarityValue (cards.getD j emptyCard).rarity : Int)

/-- See `emptyPack`. -/
def emptyRound : RoundState := { roundNumber := 0, packs := [], turn := 0 }

/-- One non-active, non-empty pack's removal inside `pickCard`'s loop:
flip the `Math.random() < 0.5` coin, then remove either a uniform index
(`randomInt`) or the rarest-card index (`findRarestCardIndex`).  The
pack is non-empty at the call site, so the rarest index is ≥ 0 and
`toNat` is exact. -/
def mixedRemoval (p : Pack) (rs : List Nat) : Pack × List Nat :=
  let coin := randomBelowHalf rs
  let choice :=
    if coin.1 then randomInt p.cards.length coin.2
    else
      let f := findRarestCardIndex p.cards coin.2
      (f.1.toNat, f.2)
  ({ p with cards := p.cards.eraseIdx choice.1 }, choice.2)

/-- The removal loop of `pickCard` (`for i` over `currentRound.packs`):
skips the active pack and empty packs; each other pack undergoes
`mixedRemoval`.  Returns the updated packs, the `removedCount` tally,
and the oracle. -/
def removeLoop (packIndex : Nat) : List Pack → Nat → List Nat →
    List Pack × Nat × List Nat
  | [], _, rs => ([], 0, rs)
  | p :: ps, i, rs =>
    if i = packIndex then
      let rest := removeLoop packIndex ps (i + 1) rs
      (p :: rest.1, rest.2.1, rest.2.2)
    else if p.cards.length > 0 then
      let step := mixedRemoval p rs
      let rest := removeLoop packIndex ps (i + 1) step.2
      (step.1 :: rest.1, rest.2.1 + 1, rest.2.2)
    else
      let rest := removeLoop packIndex ps (i + 1) rs
      (p :: rest.1, rest.2.1, rest.2.2)

/-- `pickCard`: snapshot the input into the undo buffer, splice the
chosen card out of the active pack (`splice` removes nothing and yields
`undefined` on an out-of-range index — there is no validation), run the
removal loop over the other packs, log the pick, advance the turn and,
past turn 12, either build the next round or mark the draft complete.
The round-boundary `console.warn` has no state effect and is omitted. -/
def pickCard (state : DraftState) (cardIndex : Nat) (rs : List Nat) :
    DraftState × List Nat :=
  let buffer := some (deepClone state)
  let currentRound := state.rounds.getLastD emptyRound
  let packIndex := getActivePackIndex state.currentTurn
  let activePack := currentRound.packs.getD packIndex emptyPack
  let pickedCard := activePack.cards[cardIndex]?
  let packs1 := currentRound.packs.set packIndex
    { activePack with cards := activePack.cards.eraseIdx cardIndex }
  let removed := removeLoop packIndex packs1 0 rs
  let round1 := { currentRound with packs := removed.1 }
  let logEntry : PickLogEntry :=
    { round := state.currentRound, turn := state.currentTurn,
      packIndex := packIndex, picked := pickedCard,
      removedCounts := removed.2.1 }
  let newTurn := state.currentTurn + 1
  let baseState : DraftState :=
    { state with
      rounds := state.rounds.dropLast ++ [round1],
      picks := state.picks ++ [pickedCard],
      log := state.log ++ [logEntry],
      currentTurn := newTurn,
      undoBuffer := buffer }
  if newTurn > 12 then
    if state.currentRound < 6 then
      let next := createRound (state.currentRound + 1) state.masterCards removed.2.2
      ({ baseState with
          currentRound := state.currentRound + 1,
          currentTurn := 1,
          rounds := baseState.rounds ++ [next.1] }, next.2)
    else
      ({ baseState with isComplete := true }, removed.2.2)
  else
    (baseState, removed.2.2)

/-- `undoLastPick`: `null` without a buffer, else a clone of the buffer.
The buffer is returned exactly as stored — including whatever
`undoBuffer` field the snapshot itself carries. -/
def undoLastPick (state : DraftState) : Option DraftState :=
  match state.undoBuffer with
  | none => none
  | some b => some (deepClone b)

/-- `rounds[rounds.length - 1] = newRound`: replaces the last element;
on an empty array the JavaScript assignment to index `-1` leaves the
array without index elements, so the list is returned unchanged. -/
def setLast (l : List RoundState) (r : RoundState) : List RoundState :=
  l.set (l.length - 1) r

/-- `resetRound`: truncate `picks` and `log` at the first log entry of
the current round (`findIndex` / `splice(idx)`), rebuild the current
round, reset the turn, clear the undo buffer. -/
def resetRound (state : DraftState) (rs : List Nat) : DraftState × List Nat :=
  let startIdx := state.log.findIdx? (fun e => e.round == state.currentRound)
  let truncated :=
    match startIdx with
    | none => (state.picks, state.log)
    | some idx => (state.picks.take idx, state.log.take idx)
  let newRound := createRound state.currentRound state.masterCards rs
  ({ state with
      picks := truncated.1,
      log := truncated.2,
      rounds := setLast state.rounds newRound.1,
      currentTurn := 1,
      undoBuffer := none }, newRound.2)

/-- `resetDraft` delegates to `createNewDraft`. -/
def resetDraft (masterCards : List Card) (rs : List Nat) : DraftState × List Nat :=
  createNewDraft masterCards rs

/-! ### JavaScript string primitives

The string methods the tally and the import parser use
(`String.prototype.trim`, `String.prototype.split`, `Array.prototype.join`)
are modelled by structurally recursive functions on the character list so
that concrete runs reduce inside the kernel. -/

/-- `String.prototype.trim`: strip leading and trailing whitespace. -/
def jsTrim (s : String) : String :=
  ⟨((s.data.dropWhile Char.isWhitespace).reverse.dropWhile Char.isWhitespace).reverse⟩

/-- Leading-segment test used by the splitter. -/
def headSegEq : List Char → List Char → Bool
  | [], _ => true
  | _ :: _, [] => false
  | c :: cs, d :: ds => c == d && headSegEq cs ds

/-- Worker for `jsSplit`: leftmost, non-overlapping occurrences of the
separator `c0 :: sep` split the character list.  `fuel` starts at the
list length and dominates it throughout, so the fuel-0 non-nil case is
unreachable. -/
def splitOnFuel (c0 : Char) (sep : List Char) : Nat → List Char → List Char → List (List Char)
  | _, [], acc => [acc.reverse]
  | 0, _ :: _, acc => [acc.reverse]
  | fuel + 1, c :: rest, acc =>
    if c = c0 ∧ headSegEq sep rest then
      acc.reverse :: splitOnFuel c0 sep fuel (rest.drop sep.length) []
    else
      splitOnFuel c0 sep fuel rest (c :: acc)

/-- `String.prototype.split(sep)` for a non-empty separator (the source
only splits on `"\n"` and `" - "`). -/
def jsSplit (sep : String) (s : String) : List String :=
  match sep.data with
  | [] => [s]
  | c :: cs => (splitOnFuel c cs s.data.length s.data []).map (fun l => (⟨l⟩ : String))

/-- `Array.prototype.join(sep)`. -/
def joinSep (sep : String) : List String → String
  | [] => ""
  | [x] => x
  | x :: y :: xs => x ++ sep ++ joinSep sep (y :: xs)

/-! ### Tally (`getTally`, `generateCopyTextWithoutColor` of src/lib/draft.ts) -/

/-- One entry of the tally map. -/
structure TallyEntry where
  count : Nat
  fullName : String
  color : String
deriving DecidableEq, Repr

/-- The map key `` `${card.fullName}|${card.color}` ``. -/
def tallyKey (fullName color : String) : String := fullName ++ "|" ++ color

/-- One step of `getTally`'s grouping loop over a JavaScript `Map`
(string-keyed, iterated in insertion order): increment the entry under
the card's key when present, else append a fresh entry. -/
def tallyBump (acc : List TallyEntry) (c : Card) : List TallyEntry :=
  if acc.any (fun t => tallyKey t.fullName t.color = tallyKey c.fullName c.color) then
    acc.map (fun t =>
      if tallyKey t.fullName t.color = tallyKey c.fullName c.color then
        { t with count := t.count + 1 }
      else t)
  else
    acc ++ [{ count := 1, fullName := c.fullName, color := c.color }]

/-- Stand-in for `String.prototype.localeCompare`, modelled as
code-point comparison (the comparison the runtime applies without
locale data); any total order fits the claims settled here. -/
def localeCompare (a b : String) : Ordering :=
  if a < b then .lt else if a = b then .eq else .gt

/-- The sort comparator of `getTally` (`b.count - a.count`, ties by
`localeCompare`), as the Boolean relation "the comparator is ≤ 0",
i.e. "`a` may be placed before `b`". -/
def tallyLE (a b : TallyEntry) : Bool :=
  if a.count ≠ b.count then decide (b.count < a.count)
  else localeCompare a.fullName b.fullName != Ordering.gt

/-- `getTally`: group by the composite key, then sort by count
descending, ties by name ascending.  `Array.prototype.sort` is a stable
sort driven by the comparator; `mergeSort` models it. -/
def getTally (picks : List Card) : List TallyEntry :=
  (picks.foldl tallyBump []).mergeSort tallyLE

/-- `generateCopyTextWithoutColor`: `"<count> <fullName>"` lines in
tally order, newline-joined. -/
def generateCopyTextWithoutColor (picks : List Card) : String :=
  joinSep "\n" ((getTally picks).map (fun t => toString t.count ++ " " ++ t.fullName))

/-! ### Deck import (`parseDeckText` of src/components/SavedDecks.tsx) -/

/-- One parsed line: `{count, fullName, color}` with `color: string | null`. -/
structure ParsedLine where
  count : Nat
  fullName : String
  color : Option String
deriving DecidableEq, Repr

/-- The maximal decimal-digit prefix, or `none` when there is none. -/
def digitsPrefix (cs : List Char) : Option Nat :=
  let ds := cs.takeWhile (·.isDigit)
  if ds.isEmpty then none
  else some (ds.foldl (fun acc c => acc * 10 + (c.toNat - 48)) 0)

/-- `parseInt(s, 10)`: trim, optional sign, then the digit prefix;
`none` models `NaN`. -/
def jsParseInt (s : String) : Option Int :=
  match (jsTrim s).data with
  | '-' :: rest => (digitsPrefix rest).map (fun n => -(n : Int))
  | '+' :: rest => (digitsPrefix rest).map (fun n => (n : Int))
  | cs => (digitsPrefix cs).map (fun n => (n : Int))

/-- The anchored regex `^(\d+)\s+(.+)$` applied to one line: group 1 is
the maximal digit prefix, group 2 the remainder after the following
whitespace run.  When nothing follows the whitespace run, backtracking
gives its last character to `(.+)` (possible only when the run has at
least two characters). -/
def matchNewFormat (line : String) : Option (String × String) :=
  let cs := line.data
  let ds := cs.takeWhile (·.isDigit)
  if ds.isEmpty then none
  else
    let afterDigits := cs.drop ds.length
    let ws := afterDigits.takeWhile (·.isWhitespace)
    if ws.isEmpty then none
    else
      let rest := afterDigits.drop ws.length
      if !rest.isEmpty then some (⟨ds⟩, ⟨rest⟩)
      else if ws.length ≥ 2 then some (⟨ds⟩, ⟨[ws.getLastD ' ']⟩)
      else none

/-- The closed colour list the legacy branch checks the last field
against. -/
def legacyColors : List String :=
  ["Amber", "Amethyst", "Emerald", "Ruby", "Sapphire", "Steel"]

/-- The third branch of the per-line parser: `"<count> - <name>"` with
no colour field (`parts.slice(1).join(' - ')`). -/
def tryNoColor (parts : List String) : Option ParsedLine :=
  if parts.length ≥ 2 then
    match jsParseInt (jsTrim (parts.headD "")) with
    | none => none
    | some count =>
      if count > 0 then
        let fullName := jsTrim (joinSep " - " (parts.drop 1))
        if fullName ≠ "" then some ⟨count.toNat, fullName, none⟩ else none
      else none
  else none

/-- The per-line logic of `parseDeckText`: try the new format first;
otherwise split on `" - "` and try the legacy colour format (whose
`continue` on a bad count skips the line entirely), falling through to
the colourless dash format. -/
def parseLine (line : String) : Option ParsedLine :=
  let tryNew : Option ParsedLine :=
    match matchNewFormat line with
    | none => none
    | some m =>
      match jsParseInt m.1 with
      | none => none
      | some count =>
        let fullName := jsTrim m.2
        if count > 0 ∧ fullName ≠ "" then some ⟨count.toNat, fullName, none⟩
        else none
  match tryNew with
  | some p => some p
  | none =>
    let parts := jsSplit " - " line
    if parts.length ≥ 3 then
      match jsParseInt (jsTrim (parts.headD "")) with
      | none => none
      | some count =>
        if count ≤ 0 then none
        else
          let lastPart := jsTrim (parts.getLastD "")
          if lastPart ∈ legacyColors then
            let fullName := jsTrim (joinSep " - " (parts.drop 1).dropLast)
            if fullName ≠ "" then some ⟨count.toNat, fullName, some lastPart⟩
            else tryNoColor parts
          else tryNoColor parts
    else tryNoColor parts

/-- `parseDeckText`: trim the text, split into lines, drop blank lines,
parse each line. -/
def parseDeckText (text : String) : List ParsedLine :=
  ((jsSplit "\n" (jsTrim text)).filter (fun l => jsTrim l ≠ "")).filterMap parseLine

/-! ### Shared abbreviations and concrete fixtures -/

/-- The pack `pickCard` reads the pick from: the active pack of the
current (last) round. -/
def activePackOf (s : DraftState) : Pack :=
  (s.rounds.getLastD emptyRound).packs.getD (getActivePackIndex s.currentTurn) emptyPack

/-- A minimal card used by concrete fixtures. -/
def wCard (n : Nat) : Card := { id := n, fullName := toString n, color := "Amber" }

/-- A pack of two cards. -/
def wPack2 (j : Nat) : Pack :=
  { id := "P" ++ toString j, cards := [wCard (2 * j), wCard (2 * j + 1)], removedLog := [] }

/-- A fresh two-pack state at round 1, turn 1, used by concrete runs. -/
def wStart : DraftState :=
  { masterCards := [], rounds := [{ roundNumber := 1, packs := [wPack2 0, wPack2 1], turn := 1 }],
    currentRound := 1, currentTurn := 1, picks := [], log := [],
    isComplete := false, undoBuffer := none }

/-- A finished draft: round 6 played out to six empty packs, the
completion flag set. -/
def wDone : DraftState :=
  { masterCards := [],
    rounds := [{ roundNumber := 6,
                 packs := (List.range 6).map
                   (fun j => { id := "R6P" ++ toString (j + 1), cards := [], removedLog := [] }),
                 turn := 13 }],
    currentRound := 6, currentTurn := 13, picks := [], log := [],
    isComplete := true, undoBuffer := none }

/-! ### Derived definitions: pick decomposition, drivers, invariants,
and concrete fixtures -/

/-- The active round's packs right after the active-pack splice, before
the removal loop runs. -/
def splicedPacks (s : DraftState) (i : Nat) : List Pack :=
  (s.rounds.getLastD emptyRound).packs.set (getActivePackIndex s.currentTurn)
    { activePackOf s with cards := (activePackOf s).cards.eraseIdx i }

/-- The removal loop's full output inside `pickCard`. -/
def loopOut (s : DraftState) (i : Nat) (rs : List Nat) : List Pack × Nat × List Nat :=
  removeLoop (getActivePackIndex s.currentTurn) (splicedPacks s i) 0 rs

/-- The active round as `pickCard` rewrites it. -/
def postRemovalRound (s : DraftState) (i : Nat) (rs : List Nat) : RoundState :=
  { s.rounds.getLastD emptyRound with packs := (loopOut s i rs).1 }

/-- First pick of the concrete run. -/
def wS1 : DraftState := (pickCard wStart 0 []).1

/-- Second pick of the concrete run. -/
def wS2 : DraftState := (pickCard wS1 0 []).1

/-- The exact legacy export line of the old three-field format. -/
def legacyLine : String := "3 - Cinderella - Dream Come True - Sapphire"

/-- A three-card pool for the short-pack witness. -/
def w3pool : List Card := [wCard 0, wCard 1, wCard 2]

/-- The invariant holding at the start of turn `t` of round `r` of a
well-formed draft: every pack of the active round carries `13 - t`
cards, the picks tally matches the progress, and every earlier round's
packs have been played down to empty. -/
structure Inv (s : DraftState) (r t : Nat) : Prop where
  rounds_ne : s.rounds ≠ []
  rounds_len : s.rounds.length = r
  round_eq : s.currentRound = r
  turn_eq : s.currentTurn = t
  t_ge : 1 ≤ t
  t_le : t ≤ 12
  r_ge : 1 ≤ r
  r_le : r ≤ 6
  notComplete : s.isComplete = false
  pool_ge : 12 ≤ s.masterCards.length
  packs_len : (s.rounds.getLastD emptyRound).packs.length = 6
  pack_cards : ∀ p ∈ (s.rounds.getLastD emptyRound).packs, p.cards.length = 13 - t
  picks_len : s.picks.length = 12 * (r - 1) + (t - 1)
  history_empty : ∀ round ∈ s.rounds.dropLast, ∀ p ∈ round.packs, p.cards = []

/-- Folding a list of pick indices through `pickCard`, threading the
oracle. -/
def pickSeq : DraftState → List Nat → List Nat → DraftState × List Nat
  | s, [], rs => (s, rs)
  | s, i :: is, rs => pickSeq (pickCard s i rs).1 is (pickCard s i rs).2

/-- Every index of the sequence is a valid position in the active pack
current at its own turn. -/
def validPicks : DraftState → List Nat → List Nat → Bool
  | _, [], _ => true
  | s, i :: is, rs =>
    decide (i < (activePackOf s).cards.length) &&
      validPicks (pickCard s i rs).1 is (pickCard s i rs).2

/-- A concrete state at round 2, turn 2, with one logged pick per round. -/
def wResetState : DraftState :=
  { masterCards := [wCard 0, wCard 1, wCard 2],
    rounds := [{ roundNumber := 1, packs := [], turn := 13 },
               { roundNumber := 2, packs := [wPack2 0], turn := 2 }],
    currentRound := 2, currentTurn := 2,
    picks := [some (wCard 0), some (wCard 1)],
    log := [{ round := 1, turn := 12, packIndex := 5, picked := some (wCard 0), removedCounts := 5 },
            { round := 2, turn := 1, packIndex := 0, picked := some (wCard 1), removedCounts := 5 }],
    isComplete := false, undoBuffer := none }

/-- A twelve-card pool for the full-run witness. -/
def w12pool : List Card := (List.range 12).map wCard

/-- The map key of a tally entry (the key its first card was stored
under). -/
def entryKey (t : TallyEntry) : String := tallyKey t.fullName t.color

/-- The invariant of the grouping fold: after consuming the history `h`
the accumulator has pairwise distinct keys, each entry counts exactly
its key's occurrences in `h` and names an actual pick, and every
consumed pick has an entry. -/
structure TallyInv (h : List Card) (acc : List TallyEntry) : Prop where
  nodup : (acc.map entryKey).Nodup
  counts : ∀ t ∈ acc,
    t.count = h.countP (fun c => tallyKey c.fullName c.color == entryKey t)
  source : ∀ t ∈ acc, ∃ c ∈ h, c.fullName = t.fullName ∧ c.color = t.color
  complete : ∀ c ∈ h, ∃ t ∈ acc, tallyKey c.fullName c.color = entryKey t

/-- Three pipe-free picks for the export witness. -/
def wTallyPicks : List Card := [wCard 0, wCard 0, wCard 1]

/-- A pick whose name contains the key separator. -/
def pipeCardA : Card := { id := 1, fullName := "A|B", color := "C" }

/-- A different pick whose key collides with `pipeCardA`'s. -/
def pipeCardB : Card := { id := 2, fullName := "A", color := "B|C" }

/-! ### Basic facts about `pickCard`'s shape -/

/-- The undo buffer of every `pickCard` result is the entire input state. -/
theorem pickCard_undoBuffer (s : DraftState) (i : Nat) (rs : List Nat) :
    (pickCard s i rs).1.undoBuffer = some s := by
  unfold pickCard
  dsimp only
  split
  · split <;> rfl
  · rfl

/-- The log of every `pickCard` result extends the input log by the one
new entry. -/
theorem pickCard_log (s : DraftState) (i : Nat) (rs : List Nat) :
    ∃ e, (pickCard s i rs).1.log = s.log ++ [e] := by
  unfold pickCard
  dsimp only
  split
  · split <;> exact ⟨_, rfl⟩
  · exact ⟨_, rfl⟩

/-- The picks of every `pickCard` result extend the input picks by the
spliced-out element (`none` when the index was out of range). -/
theorem pickCard_picks (s : DraftState) (i : Nat) (rs : List Nat) :
    (pickCard s i rs).1.picks = s.picks ++ [(activePackOf s).cards[i]?] := by
  unfold pickCard activePackOf
  dsimp only
  split
  · split <;> rfl
  · rfl

/-- The turn counter after a pick: reset to 1 on a round transition,
advanced by one otherwise (also past the final round). -/
theorem pickCard_currentTurn (s : DraftState) (i : Nat) (rs : List Nat) :
    (pickCard s i rs).1.currentTurn =
      if s.currentTurn + 1 > 12 ∧ s.currentRound < 6 then 1 else s.currentTurn + 1 := by
  unfold pickCard
  dsimp only
  split
  · rename_i h1
    split
    · rename_i h2
      rw [if_pos ⟨h1, h2⟩]
    · rename_i h2
      rw [if_neg (fun h => h2 h.2)]
  · rename_i h1
    rw [if_neg (fun h => h1 h.1)]

/-- The master pool is never touched by a pick. -/
theorem pickCard_masterCards (s : DraftState) (i : Nat) (rs : List Nat) :
    (pickCard s i rs).1.masterCards = s.masterCards := by
  unfold pickCard
  dsimp only
  split
  · split <;> rfl
  · rfl

/-- The round counter after a pick. -/
theorem pickCard_currentRound (s : DraftState) (i : Nat) (rs : List Nat) :
    (pickCard s i rs).1.currentRound =
      if s.currentTurn + 1 > 12 ∧ s.currentRound < 6 then s.currentRound + 1
      else s.currentRound := by
  unfold pickCard
  dsimp only
  split
  · rename_i h1
    split
    · rename_i h2
      rw [if_pos ⟨h1, h2⟩]
    · rename_i h2
      rw [if_neg (fun h => h2 h.2)]
  · rename_i h1
    rw [if_neg (fun h => h1 h.1)]

/-- The completion flag after a pick. -/
theorem pickCard_isComplete (s : DraftState) (i : Nat) (rs : List Nat) :
    (pickCard s i rs).1.isComplete =
      if s.currentTurn + 1 > 12 ∧ ¬ s.currentRound < 6 then true
      else s.isComplete := by
  unfold pickCard
  dsimp only
  split
  · rename_i h1
    split
    · rename_i h2
      rw [if_neg (fun h => h.2 h2)]
    · rename_i h2
      rw [if_pos ⟨h1, h2⟩]
  · rename_i h1
    rw [if_neg (fun h => h1 h.1)]

/-- The rounds list after a pick: the last round is rewritten through
the splice and the removal loop, and a fresh round is appended on a
round transition. -/
theorem pickCard_rounds (s : DraftState) (i : Nat) (rs : List Nat) :
    (pickCard s i rs).1.rounds =
      if s.currentTurn + 1 > 12 ∧ s.currentRound < 6 then
        (s.rounds.dropLast ++ [postRemovalRound s i rs]) ++
          [(createRound (s.currentRound + 1) s.masterCards (loopOut s i rs).2.2).1]
      else
        s.rounds.dropLast ++ [postRemovalRound s i rs] := by
  unfold pickCard postRemovalRound loopOut splicedPacks activePackOf
  dsimp only
  split
  · rename_i h1
    split
    · rename_i h2
      rw [if_pos ⟨h1, h2⟩]
    · rename_i h2
      rw [if_neg (fun h => h2 h.2)]
  · rename_i h1
    rw [if_neg (fun h => h1 h.1)]

/-- The full log entry appended by a pick. -/
theorem pickCard_log_entry (s : DraftState) (i : Nat) (rs : List Nat) :
    (pickCard s i rs).1.log = s.log ++
      [{ round := s.currentRound, turn := s.currentTurn,
         packIndex := getActivePackIndex s.currentTurn,
         picked := (activePackOf s).cards[i]?,
         removedCounts := (loopOut s i rs).2.1 }] := by
  unfold pickCard loopOut splicedPacks activePackOf
  dsimp only
  split
  · split <;> rfl
  · rfl

/-- Undo directly after any pick hands back the input state. -/
theorem undoLastPick_pickCard (s : DraftState) (i : Nat) (rs : List Nat) :
    undoLastPick (pickCard s i rs).1 = some s := by
  unfold undoLastPick
  rw [pickCard_undoBuffer]
  rfl

/-- Claim C5: for every non-complete draft state and every valid index
into the active pack, picking and then undoing restores, field for
field, the exact pre-pick state. -/
theorem pick_then_undo_restores (s : DraftState) (i : Nat) (rs : List Nat)
    (hc : s.isComplete = false) (hi : i < (activePackOf s).cards.length) :
    undoLastPick (pickCard s i rs).1 = some s :=
  undoLastPick_pickCard s i rs

/-- Witness for C5 at a concrete two-pack state. -/
theorem pick_then_undo_restores_witness :
    undoLastPick (pickCard wStart 0 []).1 = some wStart :=
  pick_then_undo_restores wStart 0 [] (by decide) (by decide)

/-- Counterexample to claim C2: after two consecutive picks, undo
succeeds and returns a state that still carries an undo buffer, so a
second consecutive undo also succeeds instead of failing with
`NoUndoAvailable`. -/
theorem undo_chains_after_two_picks_cex :
    undoLastPick wS2 = some wS1 ∧
    wS1.undoBuffer = some wStart ∧
    undoLastPick wS1 = some wStart :=
  ⟨rfl, rfl, rfl⟩

/-- Claim C2 (amended): `undoLastPick` returns the buffered snapshot
with whatever undo buffer that snapshot itself carried, so a second
consecutive undo fails exactly when the pre-pick state had no buffer;
in particular, after a pick from a buffer-free state, one undo succeeds
and a second consecutive undo fails with `NoUndoAvailable` (`null`). -/
theorem undo_not_chainable_from_bufferless (s : DraftState) (i : Nat) (rs : List Nat)
    (h : s.undoBuffer = none) :
    undoLastPick (pickCard s i rs).1 = some s ∧ undoLastPick s = none := by
  refine ⟨undoLastPick_pickCard s i rs, ?_⟩
  unfold undoLastPick
  rw [h]

/-- Witness for the amended C2 at a concrete buffer-free state. -/
theorem undo_not_chainable_from_bufferless_witness :
    undoLastPick (pickCard wStart 0 []).1 = some wStart ∧ undoLastPick wStart = none :=
  undo_not_chainable_from_bufferless wStart 0 [] rfl

/-- Counterexample to claim C1: on a completed draft (`isComplete`
true), `pickCard` does not fail and does not leave the state unchanged —
a `PickEvent` is logged, an (undefined) entry is appended to the picks,
and the turn advances. -/
theorem pickCard_ignores_isComplete_cex :
    wDone.isComplete = true ∧
    (pickCard wDone 0 []).1.log.length = wDone.log.length + 1 ∧
    (pickCard wDone 0 []).1.picks.length = wDone.picks.length + 1 ∧
    (pickCard wDone 0 []).1.currentTurn = wDone.currentTurn + 1 := by
  decide

/-- Claim C1 (amended): `pickCard` validates nothing.  For every state
whose current round exists and has the active pack in range (so that the
original would not crash), and every index — including out-of-range
indices and completed drafts — the call succeeds: exactly one
`PickEvent` is logged, one entry (the spliced card, `undefined` when the
index was invalid) is appended to the picks, the undo buffer is
installed, and the turn advances (resetting to 1 on a round
transition). -/
theorem pickCard_never_rejects (s : DraftState) (i : Nat) (rs : List Nat)
    (hr : s.rounds ≠ [])
    (hp : getActivePackIndex s.currentTurn < (s.rounds.getLastD emptyRound).packs.length) :
    (pickCard s i rs).1.log.length = s.log.length + 1 ∧
    (pickCard s i rs).1.picks.length = s.picks.length + 1 ∧
    (pickCard s i rs).1.undoBuffer = some s ∧
    ((s.currentTurn + 1 > 12 ∧ s.currentRound < 6) →
      (pickCard s i rs).1.currentTurn = 1) ∧
    (¬ (s.currentTurn + 1 > 12 ∧ s.currentRound < 6) →
      (pickCard s i rs).1.currentTurn = s.currentTurn + 1) ∧
    ((activePackOf s).cards.length ≤ i →
      (pickCard s i rs).1.picks.getLast? = some none) := by
  obtain ⟨e, he⟩ := pickCard_log s i rs
  refine ⟨by rw [he]; simp, by rw [pickCard_picks]; simp, pickCard_undoBuffer s i rs,
    ?_, ?_, ?_⟩
  · intro h
    rw [pickCard_currentTurn, if_pos h]
  · intro h
    rw [pickCard_currentTurn, if_neg h]
  · intro h
    rw [pickCard_picks, List.getLast?_concat, List.getElem?_eq_none h]

/-- Witness for the amended C1: an out-of-range pick on the completed
concrete draft still logs, appends `undefined`, and advances the turn. -/
theorem pickCard_never_rejects_witness :
    (pickCard wDone 0 []).1.log.length = wDone.log.length + 1 ∧
    (pickCard wDone 0 []).1.picks.length = wDone.picks.length + 1 ∧
    (pickCard wDone 0 []).1.undoBuffer = some wDone ∧
    ((wDone.currentTurn + 1 > 12 ∧ wDone.currentRound < 6) →
      (pickCard wDone 0 []).1.currentTurn = 1) ∧
    (¬ (wDone.currentTurn + 1 > 12 ∧ wDone.currentRound < 6) →
      (pickCard wDone 0 []).1.currentTurn = wDone.currentTurn + 1) ∧
    ((activePackOf wDone).cards.length ≤ 0 →
      (pickCard wDone 0 []).1.picks.getLast? = some none) :=
  pickCard_never_rejects wDone 0 [] (by decide) (by decide)

/-- Claim C8 (code bug): the legacy line `"3 - Cinderella - Dream Come
True - Sapphire"` is captured by the new-format regex first, so that
importing yields count 3 with the mangled name `"- Cinderella - Dream
Come True - Sapphire"` and no color — the legacy branch the code's own
comments and help text advertise is never reached for such lines. -/
theorem parseDeckText_legacy_shadowed :
    parseDeckText legacyLine =
      [⟨3, "- Cinderella - Dream Come True - Sapphire", none⟩] ∧
    (⟨3, "Cinderella - Dream Come True", some "Sapphire"⟩ : ParsedLine) ∉
      parseDeckText legacyLine := by
  decide

/-! ### Characterisation of the rarest-card scan -/

/-- A `randomInt` outcome is always within range. -/
theorem randomInt_lt (n : Nat) (rs : List Nat) (h : 0 < n) : (randomInt n rs).1 < n := by
  unfold randomInt
  dsimp only
  rw [if_neg (Nat.pos_iff_ne_zero.mp h)]
  exact Nat.mod_lt _ h

/-- Behaviour of the whole `forEach` fold from an arbitrary accumulator:
the running maximum only grows, dominates every scanned value, is
attained by a scanned element unless untouched, and the candidate list
collects exactly the indices attaining it. -/
theorem rarestFold_spec : ∀ (L : List (Nat × Card)) (acc : Int × List Nat),
    acc.1 ≤ (L.foldl rarestStep acc).1 ∧
    (∀ p ∈ L, (getRarityValue p.2.rarity : Int) ≤ (L.foldl rarestStep acc).1) ∧
    ((L.foldl rarestStep acc).1 = acc.1 ∨
      ∃ p ∈ L, (L.foldl rarestStep acc).1 = (getRarityValue p.2.rarity : Int)) ∧
    (∀ x ∈ (L.foldl rarestStep acc).2,
      (x ∈ acc.2 ∧ (L.foldl rarestStep acc).1 = acc.1) ∨
      ∃ p ∈ L, p.1 = x ∧ (getRarityValue p.2.rarity : Int) = (L.foldl rarestStep acc).1) ∧
    (∀ p ∈ L, (getRarityValue p.2.rarity : Int) = (L.foldl rarestStep acc).1 →
      p.1 ∈ (L.foldl rarestStep acc).2) ∧
    (∀ x ∈ acc.2, (L.foldl rarestStep acc).1 = acc.1 → x ∈ (L.foldl rarestStep acc).2)
  | [], acc => by
    refine ⟨Int.le_refl _, by simp, Or.inl rfl, ?_, by simp, fun x hx _ => hx⟩
    intro x hx
    exact Or.inl ⟨hx, rfl⟩
  | q :: L, acc => by
    have ih := rarestFold_spec L (rarestStep acc q)
    obtain ⟨ih1, ih2, ih3, ih4, ih5, ih6⟩ := ih
    simp only [List.foldl_cons] at *
    by_cases hA : acc.1 < (getRarityValue q.2.rarity : Int)
    · have hstep : rarestStep acc q = ((getRarityValue q.2.rarity : Int), [q.1]) := by
        unfold rarestStep
        rw [if_pos hA]
      rw [hstep] at ih1 ih2 ih3 ih4 ih5 ih6 ⊢
      refine ⟨le_of_lt (lt_of_lt_of_le hA ih1), ?_, ?_, ?_, ?_, ?_⟩
      · intro p hp
        rcases List.mem_cons.mp hp with h | h
        · subst h; exact ih1
        · exact ih2 p h
      · rcases ih3 with h | ⟨p, hp, hv⟩
        · exact Or.inr ⟨q, List.mem_cons_self _ _, h⟩
        · exact Or.inr ⟨p, List.mem_cons_of_mem _ hp, hv⟩
      · intro x hx
        rcases ih4 x hx with ⟨hmem, heq⟩ | ⟨p, hp, hpx, hv⟩
        · have : x = q.1 := by simpa using hmem
          exact Or.inr ⟨q, List.mem_cons_self _ _, this.symm, heq.symm⟩
        · exact Or.inr ⟨p, List.mem_cons_of_mem _ hp, hpx, hv⟩
      · intro p hp hv
        rcases List.mem_cons.mp hp with h | h
        · subst h
          exact ih6 p.1 (by simp) hv.symm
        · exact ih5 p h hv
      · intro x hx heq
        exact absurd (lt_of_lt_of_le hA ih1) (by rw [heq]; exact lt_irrefl _)
    · by_cases hB : (getRarityValue q.2.rarity : Int) = acc.1
      · have hstep : rarestStep acc q = (acc.1, acc.2 ++ [q.1]) := by
          unfold rarestStep
          rw [if_neg hA, if_pos hB]
        rw [hstep] at ih1 ih2 ih3 ih4 ih5 ih6 ⊢
        refine ⟨ih1, ?_, ?_, ?_, ?_, ?_⟩
        · intro p hp
          rcases List.mem_cons.mp hp with h | h
          · subst h; rw [hB]; exact ih1
          · exact ih2 p h
        · rcases ih3 with h | ⟨p, hp, hv⟩
          · exact Or.inl h
          · exact Or.inr ⟨p, List.mem_cons_of_mem _ hp, hv⟩
        · intro x hx
          rcases ih4 x hx with ⟨hmem, heq⟩ | ⟨p, hp, hpx, hv⟩
          · rcases List.mem_append.mp hmem with h | h
            · exact Or.inl ⟨h, heq⟩
            · have : x = q.1 := by simpa using h
              exact Or.inr ⟨q, List.mem_cons_self _ _, this.symm, by rw [hB, heq]⟩
          · exact Or.inr ⟨p, List.mem_cons_of_mem _ hp, hpx, hv⟩
        · intro p hp hv
          rcases List.mem_cons.mp hp with h | h
          · subst h
            refine ih6 p.1 (by simp) ?_
            rw [← hv, hB]
          · exact ih5 p h hv
        · intro x hx heq
          exact ih6 x (List.mem_append_left _ hx) heq
      · have hC : (getRarityValue q.2.rarity : Int) < acc.1 :=
          lt_of_le_of_ne (not_lt.mp hA) hB
        have hstep : rarestStep acc q = acc := by
          unfold rarestStep
          rw [if_neg hA, if_neg hB]
        rw [hstep] at ih1 ih2 ih3 ih4 ih5 ih6 ⊢
        refine ⟨ih1, ?_, ?_, ?_, ?_, ih6⟩
        · intro p hp
          rcases List.mem_cons.mp hp with h | h
          · subst h; exact le_of_lt (lt_of_lt_of_le hC ih1)
          · exact ih2 p h
        · rcases ih3 with h | ⟨p, hp, hv⟩
          · exact Or.inl h
          · exact Or.inr ⟨p, List.mem_cons_of_mem _ hp, hv⟩
        · intro x hx
          rcases ih4 x hx with ⟨hmem, heq⟩ | ⟨p, hp, hpx, hv⟩
          · exact Or.inl ⟨hmem, heq⟩
          · exact Or.inr ⟨p, List.mem_cons_of_mem _ hp, hpx, hv⟩
        · intro p hp hv
          rcases List.mem_cons.mp hp with h | h
          · subst h
            exact absurd (hv ▸ lt_of_lt_of_le hC ih1) (lt_irrefl _)
          · exact ih5 p h hv

/-- Membership facts about one position of the enumeration. -/
theorem mem_enum_of_lt {cards : List Card} {j : Nat} (hj : j < cards.length) :
    (j, cards.getD j emptyCard) ∈ cards.enum := by
  rw [List.mk_mem_enum_iff_getElem?, List.getD_eq_getElem?_getD,
    List.getElem?_eq_getElem hj]
  rfl

/-- Every collected candidate is a valid position attaining the maximum. -/
theorem rarestScan_snd_mem (cards : List Card) :
    ∀ x ∈ (rarestScan cards).2, x < cards.length ∧ rarityAt cards x = (rarestScan cards).1 := by
  intro x hx
  obtain ⟨-, -, -, h4, -, -⟩ := rarestFold_spec cards.enum (-1, [])
  rcases h4 x hx with ⟨hmem, -⟩ | ⟨p, hp, hpx, hv⟩
  · exact absurd hmem (by simp)
  · rw [List.mk_mem_enum_iff_getElem?] at hp
    have hlt : p.1 < cards.length := by
      rcases List.getElem?_eq_some.mp hp with ⟨h, -⟩
      exact h
    have hgetD : cards.getD p.1 emptyCard = p.2 := by
      rw [List.getD_eq_getElem?_getD, hp]
      rfl
    subst hpx
    exact ⟨hlt, by rw [rarityAt, hgetD]; exact hv⟩

/-- The scanned maximum dominates every position's rarity. -/
theorem rarestScan_fst_ge (cards : List Card) :
    ∀ j, j < cards.length → rarityAt cards j ≤ (rarestScan cards).1 := by
  intro j hj
  obtain ⟨-, h2, -, -, -, -⟩ := rarestFold_spec cards.enum (-1, [])
  exact h2 _ (mem_enum_of_lt hj)

/-- Every position attaining the maximum is collected. -/
theorem rarestScan_complete (cards : List Card) :
    ∀ j, j < cards.length → rarityAt cards j = (rarestScan cards).1 →
      j ∈ (rarestScan cards).2 := by
  intro j hj hv
  obtain ⟨-, -, -, -, h5, -⟩ := rarestFold_spec cards.enum (-1, [])
  exact h5 _ (mem_enum_of_lt hj) hv

/-- A non-empty pack always yields candidates. -/
theorem rarestScan_snd_ne_nil (cards : List Card) (h : cards ≠ []) :
    (rarestScan cards).2 ≠ [] := by
  have hlen : 0 < cards.length := List.length_pos.mpr h
  obtain ⟨-, -, h3, -, -, -⟩ := rarestFold_spec cards.enum (-1, [])
  rcases h3 with hfst | ⟨p, hp, hv⟩
  · exfalso
    have hge := rarestScan_fst_ge cards 0 hlen
    rw [rarestScan, hfst] at hge
    have : (0 : Int) ≤ rarityAt cards 0 := Int.natCast_nonneg _
    omega
  · rw [List.mk_mem_enum_iff_getElem?] at hp
    have hlt : p.1 < cards.length := by
      rcases List.getElem?_eq_some.mp hp with ⟨hh, -⟩
      exact hh
    have hgetD : cards.getD p.1 emptyCard = p.2 := by
      rw [List.getD_eq_getElem?_getD, hp]
      rfl
    have : p.1 ∈ (rarestScan cards).2 :=
      rarestScan_complete cards p.1 hlt (by rw [rarityAt, hgetD]; exact hv.symm)
    exact List.ne_nil_of_mem this

/-- The index returned for a non-empty pack is a collected candidate,
and the returned integer is non-negative. -/
theorem findRarestCardIndex_mem (cards : List Card) (rs : List Nat) (h : cards ≠ []) :
    (findRarestCardIndex cards rs).1.toNat ∈ (rarestScan cards).2 ∧
    0 ≤ (findRarestCardIndex cards rs).1 := by
  have hne := rarestScan_snd_ne_nil cards h
  have hpos : 0 < (rarestScan cards).2.length := List.length_pos.mpr hne
  unfold findRarestCardIndex
  rw [if_neg (by simpa using h)]
  dsimp only
  split
  · have hhead : (rarestScan cards).2.headD 0 ∈ (rarestScan cards).2 := by
      cases hsnd : (rarestScan cards).2 with
      | nil => exact absurd hsnd hne
      | cons y ys => simp
    exact ⟨by simpa using hhead, Int.natCast_nonneg _⟩
  · have hdraw := randomInt_lt (rarestScan cards).2.length rs hpos
    have hmem : (rarestScan cards).2.getD (randomInt (rarestScan cards).2.length rs).1 0 ∈
        (rarestScan cards).2 := by
      rw [List.getD_eq_getElem?_getD, List.getElem?_eq_getElem hdraw]
      exact List.getElem_mem _
    exact ⟨by simpa using hmem, Int.natCast_nonneg _⟩

/-- For a non-empty pack, `findRarestCardIndex` returns a valid index of
maximal rarity rank. -/
theorem findRarestCardIndex_max (cards : List Card) (rs : List Nat) (h : cards ≠ []) :
    (findRarestCardIndex cards rs).1.toNat < cards.length ∧
    ∀ j, j < cards.length →
      rarityAt cards j ≤ rarityAt cards (findRarestCardIndex cards rs).1.toNat := by
  obtain ⟨hmem, -⟩ := findRarestCardIndex_mem cards rs h
  obtain ⟨hlt, hval⟩ := rarestScan_snd_mem cards _ hmem
  exact ⟨hlt, fun j hj => by rw [hval]; exact rarestScan_fst_ge cards j hj⟩

/-! ### Sampling lemmas (claim C10) -/

/-- Moving the element at a valid index to the front is a permutation. -/
theorem getD_cons_eraseIdx_perm {α : Type} :
    ∀ (l : List α) (i : Nat), i < l.length → ∀ d : α, List.Perm ((l.getD i d) :: l.eraseIdx i) l
  | [], i, h, _ => absurd h (by simp)
  | x :: xs, 0, _, d => by simp
  | x :: xs, i + 1, h, d => by
    have hi : i < xs.length := by simpa using h
    have h1 : (x :: xs).getD (i + 1) d :: (x :: xs).eraseIdx (i + 1)
        = xs.getD i d :: x :: xs.eraseIdx i := by simp [List.getD_cons_succ]
    rw [h1]
    exact (List.Perm.swap _ _ _).trans ((getD_cons_eraseIdx_perm xs i hi d).cons x)

/-- The sampling loop returns exactly `min fuel |copy|` items. -/
theorem sampleLoop_length : ∀ (fuel : Nat) (copy : List Card) (rs : List Nat),
    (sampleLoop fuel copy rs).1.length = min fuel copy.length
  | 0, copy, rs => by simp [sampleLoop]
  | fuel + 1, [], rs => by simp [sampleLoop]
  | fuel + 1, x :: xs, rs => by
    have hlt : (randomInt (x :: xs).length rs).1 < (x :: xs).length :=
      randomInt_lt _ rs (by simp)
    have herase := List.length_eraseIdx_of_lt hlt
    have ih := sampleLoop_length fuel ((x :: xs).eraseIdx (randomInt (x :: xs).length rs).1)
      (randomInt (x :: xs).length rs).2
    simp only [List.length_cons] at ih herase
    simp only [sampleLoop, List.length_cons, ih, herase]
    omega

/-- With enough fuel the sampling loop permutes the whole list. -/
theorem sampleLoop_perm : ∀ (fuel : Nat) (copy : List Card) (rs : List Nat),
    copy.length ≤ fuel → List.Perm (sampleLoop fuel copy rs).1 copy
  | 0, copy, rs, h => by
    have : copy = [] := List.length_eq_zero.mp (Nat.le_zero.mp h)
    simp [this, sampleLoop]
  | fuel + 1, [], rs, _ => by simp [sampleLoop]
  | fuel + 1, x :: xs, rs, h => by
    have hlt : (randomInt (x :: xs).length rs).1 < (x :: xs).length :=
      randomInt_lt _ rs (by simp)
    have herase := List.length_eraseIdx_of_lt hlt
    have hfuel : ((x :: xs).eraseIdx (randomInt (x :: xs).length rs).1).length ≤ fuel := by
      rw [herase]; simp only [List.length_cons] at h ⊢; omega
    have ih := sampleLoop_perm fuel ((x :: xs).eraseIdx (randomInt (x :: xs).length rs).1)
      (randomInt (x :: xs).length rs).2 hfuel
    simp only [sampleLoop]
    exact (ih.cons _).trans (getD_cons_eraseIdx_perm _ _ hlt x)

/-- Every sampling-loop result is drawn without replacement: it is a
permutation of a sublist of the input. -/
theorem sampleLoop_subperm : ∀ (fuel : Nat) (copy : List Card) (rs : List Nat),
    List.Subperm (sampleLoop fuel copy rs).1 copy
  | 0, copy, rs => by simp [sampleLoop, List.nil_subperm]
  | fuel + 1, [], rs => by simp [sampleLoop, List.nil_subperm]
  | fuel + 1, x :: xs, rs => by
    have hlt : (randomInt (x :: xs).length rs).1 < (x :: xs).length :=
      randomInt_lt _ rs (by simp)
    have ih := sampleLoop_subperm fuel ((x :: xs).eraseIdx (randomInt (x :: xs).length rs).1)
      (randomInt (x :: xs).length rs).2
    simp only [sampleLoop]
    exact ((List.subperm_cons _).mpr ih).trans (getD_cons_eraseIdx_perm _ _ hlt x).subperm

/-- Size of a single sample. -/
theorem sampleWithoutReplacement_length (arr : List Card) (k : Nat) (rs : List Nat) :
    (sampleWithoutReplacement arr k rs).1.length = min k arr.length := by
  unfold sampleWithoutReplacement
  rw [sampleLoop_length]
  omega

/-- A single sample never repeats an input position. -/
theorem sampleWithoutReplacement_subperm (arr : List Card) (k : Nat) (rs : List Nat) :
    List.Subperm (sampleWithoutReplacement arr k rs).1 arr :=
  sampleLoop_subperm _ arr rs

/-- A sample of at least the whole pool is a permutation of the pool. -/
theorem sampleWithoutReplacement_perm (arr : List Card) (k : Nat) (rs : List Nat)
    (h : arr.length ≤ k) : List.Perm (sampleWithoutReplacement arr k rs).1 arr := by
  unfold sampleWithoutReplacement
  rw [Nat.min_eq_right h]
  exact sampleLoop_perm _ arr rs (Nat.le_refl _)

/-- `mkPacks` builds exactly the requested number of packs. -/
theorem mkPacks_length (n : Nat) (pool : List Card) :
    ∀ (cnt i : Nat) (rs : List Nat), (mkPacks n pool cnt i rs).1.length = cnt
  | 0, _, _ => rfl
  | cnt + 1, i, rs => by
    simp only [mkPacks, List.length_cons, mkPacks_length n pool cnt (i + 1)]

/-- Every pack built by `mkPacks` is a 12-card sample of the pool. -/
theorem mkPacks_cards (n : Nat) (pool : List Card) :
    ∀ (cnt i : Nat) (rs : List Nat), ∀ pk ∈ (mkPacks n pool cnt i rs).1,
      ∃ rs', pk.cards = (sampleWithoutReplacement pool 12 rs').1
  | 0, _, _, pk, h => absurd h (by simp [mkPacks])
  | cnt + 1, i, rs, pk, h => by
    simp only [mkPacks, List.mem_cons] at h
    rcases h with h | h
    · exact ⟨rs, by rw [h]⟩
    · exact mkPacks_cards n pool cnt (i + 1) _ pk h

/-- Claim C10: pack creation is total, each created pack holds exactly
`min 12 |pool|` cards drawn without replacement within the single draw,
and a pool smaller than 12 yields a short pack that is a permutation of
the whole pool. -/
theorem createRound_pack_sizes (n : Nat) (pool : List Card) (rs : List Nat) :
    (createRound n pool rs).1.packs.length = 6 ∧
    ∀ pk ∈ (createRound n pool rs).1.packs,
      pk.cards.length = min 12 pool.length ∧
      List.Subperm pk.cards pool ∧
      (pool.length < 12 → List.Perm pk.cards pool) := by
  constructor
  · unfold createRound
    exact mkPacks_length n pool 6 1 rs
  · intro pk hpk
    obtain ⟨rs', hcards⟩ := mkPacks_cards n pool 6 1 rs pk hpk
    refine ⟨?_, ?_, ?_⟩
    · rw [hcards, sampleWithoutReplacement_length]
    · rw [hcards]; exact sampleWithoutReplacement_subperm pool 12 rs'
    · intro hlt
      rw [hcards]
      exact sampleWithoutReplacement_perm pool 12 rs' (Nat.le_of_lt hlt)

/-- Witness for C10 at the three-card pool: the first created pack holds
all three cards. -/
theorem createRound_pack_sizes_witness :
    (createRound 1 w3pool []).1.packs.length = 6 ∧
    (((createRound 1 w3pool []).1.packs.getD 0 emptyPack).cards.length = min 12 w3pool.length ∧
     List.Subperm ((createRound 1 w3pool []).1.packs.getD 0 emptyPack).cards w3pool ∧
     (w3pool.length < 12 →
       List.Perm ((createRound 1 w3pool []).1.packs.getD 0 emptyPack).cards w3pool)) :=
  ⟨(createRound_pack_sizes 1 w3pool []).1,
   (createRound_pack_sizes 1 w3pool []).2 _ (by decide)⟩

/-! ### Characterisation of the removal loop -/

/-- `mixedRemoval` removes exactly one card from a non-empty pack. -/
theorem mixedRemoval_cards_length (p : Pack) (rs : List Nat) (h : p.cards ≠ []) :
    (mixedRemoval p rs).1.cards.length = p.cards.length - 1 := by
  have hpos : 0 < p.cards.length := List.length_pos.mpr h
  simp only [mixedRemoval]
  split
  · exact List.length_eraseIdx_of_lt (randomInt_lt _ _ hpos)
  · exact List.length_eraseIdx_of_lt (findRarestCardIndex_max p.cards _ h).1

/-- The removal loop does not change the number of packs. -/
theorem removeLoop_length (pi : Nat) : ∀ (packs : List Pack) (i : Nat) (rs : List Nat),
    (removeLoop pi packs i rs).1.length = packs.length
  | [], _, _ => rfl
  | p :: ps, i, rs => by
    simp only [removeLoop]
    split
    · simp [removeLoop_length pi ps (i + 1) rs]
    · split
      · simp [removeLoop_length pi ps (i + 1)]
      · simp [removeLoop_length pi ps (i + 1) rs]

/-- Per-pack effect of the removal loop: the pack at the active offset
and empty packs pass through unchanged; every other pack is hit by one
`mixedRemoval` at some oracle suffix. -/
theorem removeLoop_getD (pi : Nat) : ∀ (packs : List Pack) (i : Nat) (rs : List Nat) (j : Nat),
    j < packs.length →
    (i + j = pi → (removeLoop pi packs i rs).1.getD j emptyPack = packs.getD j emptyPack) ∧
    (i + j ≠ pi → (packs.getD j emptyPack).cards = [] →
      (removeLoop pi packs i rs).1.getD j emptyPack = packs.getD j emptyPack) ∧
    (i + j ≠ pi → (packs.getD j emptyPack).cards ≠ [] →
      ∃ rs', (removeLoop pi packs i rs).1.getD j emptyPack =
        (mixedRemoval (packs.getD j emptyPack) rs').1)
  | [], _, _, j, hj => absurd hj (by simp)
  | p :: ps, i, rs, 0, _ => by
    simp only [removeLoop, List.getD_cons_zero, Nat.add_zero]
    split
    · rename_i h
      exact ⟨fun _ => rfl, fun hne _ => absurd h hne, fun hne _ => absurd h hne⟩
    · rename_i h
      split
      · rename_i hpos
        refine ⟨fun he => absurd he h, fun _ hemp => ?_, fun _ _ => ⟨rs, rfl⟩⟩
        rw [hemp] at hpos
        exact absurd hpos (by simp)
      · rename_i hpos
        refine ⟨fun _ => rfl, fun _ _ => rfl, fun _ hne => ?_⟩
        exact absurd (List.length_pos.mpr hne) (by simpa using hpos)
  | p :: ps, i, rs, j + 1, hj => by
    have hj' : j < ps.length := by simpa using hj
    have harith : ∀ k : Nat, i + (j + 1) = k ↔ (i + 1) + j = k := by
      intro k
      omega
    simp only [removeLoop, List.getD_cons_succ]
    split
    · obtain ⟨h1, h2, h3⟩ := removeLoop_getD pi ps (i + 1) rs j hj'
      exact ⟨fun he => h1 ((harith pi).mp he), fun hne => h2 (fun he => hne ((harith pi).mpr he)),
        fun hne => h3 (fun he => hne ((harith pi).mpr he))⟩
    · split
      · obtain ⟨h1, h2, h3⟩ := removeLoop_getD pi ps (i + 1) (mixedRemoval p rs).2 j hj'
        exact ⟨fun he => h1 ((harith pi).mp he), fun hne => h2 (fun he => hne ((harith pi).mpr he)),
          fun hne => h3 (fun he => hne ((harith pi).mpr he))⟩
      · obtain ⟨h1, h2, h3⟩ := removeLoop_getD pi ps (i + 1) rs j hj'
        exact ⟨fun he => h1 ((harith pi).mp he), fun hne => h2 (fun he => hne ((harith pi).mpr he)),
          fun hne => h3 (fun he => hne ((harith pi).mpr he))⟩

/-- The `removedCount` tally counts exactly the non-active, non-empty
packs. -/
theorem removeLoop_count (pi : Nat) : ∀ (packs : List Pack) (i : Nat) (rs : List Nat),
    (removeLoop pi packs i rs).2.1 =
      (packs.enumFrom i).countP (fun q => !(q.1 == pi) && !q.2.cards.isEmpty)
  | [], i, rs => by simp [removeLoop]
  | p :: ps, i, rs => by
    simp only [removeLoop, List.enumFrom_cons, List.countP_cons]
    split
    · rename_i h
      rw [removeLoop_count pi ps (i + 1) rs]
      simp [h]
    · rename_i h
      split
      · rename_i hpos
        rw [removeLoop_count pi ps (i + 1) (mixedRemoval p rs).2]
        have hne : p.cards ≠ [] := by
          intro hemp
          rw [hemp] at hpos
          exact absurd hpos (by simp)
        simp [h, List.isEmpty_iff, hne]
      · rename_i hpos
        rw [removeLoop_count pi ps (i + 1) rs]
        have hemp : p.cards = [] := by
          rcases List.eq_nil_or_concat p.cards with h' | ⟨l, a, h'⟩
          · exact h'
          · exfalso
            apply hpos
            rw [h']
            simp
        simp [hemp]

/-- Counting the removal targets when every pack is non-empty and the
active offset lies outside the scanned range. -/
theorem countP_removal_no_hit : ∀ (packs : List Pack) (i pi : Nat),
    (∀ p ∈ packs, p.cards ≠ []) → pi < i →
    (packs.enumFrom i).countP (fun q => !(q.1 == pi) && !q.2.cards.isEmpty) = packs.length
  | [], _, _, _, _ => rfl
  | p :: ps, i, pi, hall, hlt => by
    have hne : p.cards ≠ [] := hall p (by simp)
    rw [List.enumFrom_cons, List.countP_cons,
      countP_removal_no_hit ps (i + 1) pi (fun q hq => hall q (by simp [hq])) (by omega)]
    have : (i == pi) = false := by
      simp only [beq_eq_false_iff_ne]
      omega
    simp [this, List.isEmpty_iff, hne]

/-- Counting the removal targets when every pack is non-empty and the
active offset lies inside the scanned range: all but the active pack. -/
theorem countP_removal_all_nonempty : ∀ (packs : List Pack) (i pi : Nat),
    (∀ p ∈ packs, p.cards ≠ []) → i ≤ pi → pi < i + packs.length →
    (packs.enumFrom i).countP (fun q => !(q.1 == pi) && !q.2.cards.isEmpty) =
      packs.length - 1
  | [], _, _, _, hle, hlt => by simp at hlt; omega
  | p :: ps, i, pi, hall, hle, hlt => by
    have hne : p.cards ≠ [] := hall p (by simp)
    rw [List.enumFrom_cons, List.countP_cons]
    by_cases h : i = pi
    · rw [countP_removal_no_hit ps (i + 1) pi (fun q hq => hall q (by simp [hq])) (by omega)]
      simp [h]
    · rw [countP_removal_all_nonempty ps (i + 1) pi (fun q hq => hall q (by simp [hq]))
        (by omega) (by simp only [List.length_cons] at hlt; omega)]
      have hb : (i == pi) = false := by
        simp only [beq_eq_false_iff_ne]
        exact h
      have hlen : 0 < ps.length := by
        simp at hlt
        omega
      simp only [hb, List.isEmpty_iff, Bool.not_false, Bool.true_and]
      rw [if_pos (by simpa [List.isEmpty_iff] using hne)]
      simp only [List.length_cons]
      omega

/-! ### The in-round invariant and the pick step -/

/-- `getD` at an in-range position is a member. -/
theorem getD_mem_of_lt {α : Type} (l : List α) (j : Nat) (d : α) (h : j < l.length) :
    l.getD j d ∈ l := by
  rw [List.getD_eq_getElem?_getD, List.getElem?_eq_getElem h, Option.getD_some]
  exact List.getElem_mem h

/-- Pointwise `getD` facts give facts about all members. -/
theorem forall_mem_of_getD {α : Type} {l : List α} (P : α → Prop) (d : α)
    (h : ∀ j, j < l.length → P (l.getD j d)) : ∀ a ∈ l, P a := by
  intro a ha
  obtain ⟨j, hj, rfl⟩ := List.mem_iff_getElem.mp ha
  have hp := h j hj
  rwa [List.getD_eq_getElem?_getD, List.getElem?_eq_getElem hj, Option.getD_some] at hp

/-- `getD` after `set` at the written position. -/
theorem getD_set_self {α : Type} (l : List α) (k : Nat) (a d : α) (hk : k < l.length) :
    (l.set k a).getD k d = a := by
  rw [List.getD_eq_getElem?_getD, List.getElem?_eq_getElem (by simpa using hk),
    Option.getD_some, List.getElem_set_self]

/-- `getD` after `set` at any other position. -/
theorem getD_set_ne {α : Type} (l : List α) (k : Nat) (a d : α) (j : Nat)
    (hj : j < l.length) (hne : k ≠ j) : (l.set k a).getD j d = l.getD j d := by
  rw [List.getD_eq_getElem?_getD, List.getD_eq_getElem?_getD,
    List.getElem?_eq_getElem (by simpa using hj), List.getElem?_eq_getElem hj,
    Option.getD_some, Option.getD_some, List.getElem_set_ne hne]

/-- The pack count of every created round. -/
theorem createRound_packs_length (n : Nat) (pool : List Card) (rs : List Nat) :
    (createRound n pool rs).1.packs.length = 6 :=
  mkPacks_length n pool 6 1 rs

/-- Every pack of a created round has `min 12 |pool|` cards. -/
theorem createRound_pack_cards_length (n : Nat) (pool : List Card) (rs : List Nat) :
    ∀ pk ∈ (createRound n pool rs).1.packs, pk.cards.length = min 12 pool.length := by
  intro pk hpk
  obtain ⟨rs', hcards⟩ := mkPacks_cards n pool 6 1 rs pk hpk
  rw [hcards, sampleWithoutReplacement_length]

/-- Under the invariant, a valid pick leaves every pack of the active
round with exactly `12 - t` cards: the active pack loses the picked
card, every other (non-empty) pack loses one card to `mixedRemoval`. -/
theorem postRemovalRound_packs (s : DraftState) (r t i : Nat) (rs : List Nat)
    (hInv : Inv s r t) (hi : i < (activePackOf s).cards.length) :
    (postRemovalRound s i rs).packs.length = 6 ∧
    ∀ p ∈ (postRemovalRound s i rs).packs, p.cards.length = 12 - t := by
  have hpi : getActivePackIndex s.currentTurn < 6 :=
    Nat.mod_lt _ (by omega)
  have hpacks := hInv.packs_len
  have hactive_mem : activePackOf s ∈ (s.rounds.getLastD emptyRound).packs := by
    unfold activePackOf
    exact getD_mem_of_lt _ _ _ (by omega)
  have hactive_len : (activePackOf s).cards.length = 13 - t :=
    hInv.pack_cards _ hactive_mem
  have hsp_len : (splicedPacks s i).length = 6 := by
    unfold splicedPacks
    rw [List.length_set, hpacks]
  have hout_len : (loopOut s i rs).1.length = 6 := by
    unfold loopOut
    rw [removeLoop_length, hsp_len]
  have hsp_pi : (splicedPacks s i).getD (getActivePackIndex s.currentTurn) emptyPack =
      { activePackOf s with cards := (activePackOf s).cards.eraseIdx i } := by
    unfold splicedPacks
    exact getD_set_self _ _ _ _ (by omega)
  have hsp_ne : ∀ j, j < 6 → j ≠ getActivePackIndex s.currentTurn →
      (splicedPacks s i).getD j emptyPack =
        (s.rounds.getLastD emptyRound).packs.getD j emptyPack := by
    intro j hj hne
    unfold splicedPacks
    exact getD_set_ne _ _ _ _ j (by omega) (fun h => hne h.symm)
  refine ⟨by unfold postRemovalRound; exact hout_len, ?_⟩
  apply forall_mem_of_getD (fun p => p.cards.length = 12 - t) emptyPack
  intro j hj
  rw [postRemovalRound] at hj ⊢
  dsimp only at hj ⊢
  rw [hout_len] at hj
  unfold loopOut
  obtain ⟨hc1, hc2, hc3⟩ :=
    removeLoop_getD (getActivePackIndex s.currentTurn) (splicedPacks s i) 0 rs j
      (by omega)
  by_cases hjpi : j = getActivePackIndex s.currentTurn
  · rw [hc1 (by omega), hjpi, hsp_pi]
    have : i < (activePackOf s).cards.length := hi
    simp only [List.length_eraseIdx_of_lt this]
    omega
  · have horig : (splicedPacks s i).getD j emptyPack =
        (s.rounds.getLastD emptyRound).packs.getD j emptyPack := hsp_ne j hj hjpi
    have hmem : (s.rounds.getLastD emptyRound).packs.getD j emptyPack ∈
        (s.rounds.getLastD emptyRound).packs :=
      getD_mem_of_lt _ _ _ (by omega)
    have hlen : ((splicedPacks s i).getD j emptyPack).cards.length = 13 - t := by
      rw [horig]
      exact hInv.pack_cards _ hmem
    have hne_nil : ((splicedPacks s i).getD j emptyPack).cards ≠ [] := by
      intro hemp
      rw [hemp] at hlen
      simp at hlen
      omega
    obtain ⟨rs', hrs'⟩ := hc3 (by omega) hne_nil
    rw [hrs', mixedRemoval_cards_length _ _ hne_nil, hlen]
    omega

/-- A mid-round pick (turn below 12) advances the invariant by one turn. -/
theorem inv_step_mid (s : DraftState) (r t i : Nat) (rs : List Nat)
    (hInv : Inv s r t) (ht : t < 12) (hi : i < (activePackOf s).cards.length) :
    Inv (pickCard s i rs).1 r (t + 1) := by
  have hcond : ¬ (s.currentTurn + 1 > 12 ∧ s.currentRound < 6) := by
    rw [hInv.turn_eq]
    intro h
    omega
  have hrounds := pickCard_rounds s i rs
  rw [if_neg hcond] at hrounds
  obtain ⟨hplen, hpcards⟩ := postRemovalRound_packs s r t i rs hInv hi
  refine ⟨?_, ?_, ?_, ?_, ?_, ?_, hInv.r_ge, hInv.r_le, ?_, ?_, ?_, ?_, ?_, ?_⟩
  · rw [hrounds]
    simp
  · rw [hrounds, List.length_append, List.length_dropLast, hInv.rounds_len]
    have := hInv.r_ge
    simp
    omega
  · rw [pickCard_currentRound, if_neg hcond, hInv.round_eq]
  · rw [pickCard_currentTurn, if_neg hcond, hInv.turn_eq]
  · omega
  · omega
  · rw [pickCard_isComplete, if_neg ?_]
    · exact hInv.notComplete
    · intro h
      have := hInv.turn_eq
      omega
  · rw [pickCard_masterCards]
    exact hInv.pool_ge
  · rw [hrounds, List.getLastD_concat]
    exact hplen
  · rw [hrounds, List.getLastD_concat]
    intro p hp
    have := hpcards p hp
    omega
  · rw [pickCard_picks, List.length_append, hInv.picks_len]
    have := hInv.t_ge
    simp
    omega
  · rw [hrounds, List.dropLast_concat]
    exact hInv.history_empty

/-- The twelfth pick of a non-final round completes the round: the
invariant restarts at turn 1 of the next round and the finished round's
packs are all empty. -/
theorem inv_step_round (s : DraftState) (r i : Nat) (rs : List Nat)
    (hInv : Inv s r 12) (hr6 : r < 6) (hi : i < (activePackOf s).cards.length) :
    Inv (pickCard s i rs).1 (r + 1) 1 := by
  have hcond : s.currentTurn + 1 > 12 ∧ s.currentRound < 6 := by
    rw [hInv.turn_eq, hInv.round_eq]
    exact ⟨by omega, hr6⟩
  have hrounds := pickCard_rounds s i rs
  rw [if_pos hcond] at hrounds
  obtain ⟨hplen, hpcards⟩ := postRemovalRound_packs s r 12 i rs hInv hi
  have hpost_empty : ∀ p ∈ (postRemovalRound s i rs).packs, p.cards = [] := by
    intro p hp
    have := hpcards p hp
    simpa [List.length_eq_zero] using this
  refine ⟨?_, ?_, ?_, ?_, by omega, by omega, by omega, by omega, ?_, ?_, ?_, ?_, ?_, ?_⟩
  · rw [hrounds]
    simp
  · rw [hrounds, List.length_append, List.length_append, List.length_dropLast,
      hInv.rounds_len]
    have := hInv.r_ge
    simp
    omega
  · rw [pickCard_currentRound, if_pos hcond, hInv.round_eq]
  · rw [pickCard_currentTurn, if_pos hcond]
  · rw [pickCard_isComplete, if_neg (fun h => h.2 hcond.2)]
    exact hInv.notComplete
  · rw [pickCard_masterCards]
    exact hInv.pool_ge
  · rw [hrounds, List.getLastD_concat]
    exact createRound_packs_length _ _ _
  · rw [hrounds, List.getLastD_concat]
    intro p hp
    have hmin := createRound_pack_cards_length _ _ _ p hp
    have := hInv.pool_ge
    omega
  · rw [pickCard_picks, List.length_append, hInv.picks_len]
    have := hInv.r_ge
    simp
    omega
  · rw [hrounds, List.dropLast_concat]
    intro round hr
    rcases List.mem_append.mp hr with h | h
    · exact hInv.history_empty round h
    · have : round = postRemovalRound s i rs := by simpa using h
      rw [this]
      exact hpost_empty

/-- The twelfth pick of round 6 finishes the draft: completion flag set,
72 picks recorded, every pack of every round empty. -/
theorem inv_step_final (s : DraftState) (i : Nat) (rs : List Nat)
    (hInv : Inv s 6 12) (hi : i < (activePackOf s).cards.length) :
    (pickCard s i rs).1.isComplete = true ∧
    (pickCard s i rs).1.picks.length = 72 ∧
    ∀ round ∈ (pickCard s i rs).1.rounds, ∀ p ∈ round.packs, p.cards = [] := by
  have hcond : ¬ (s.currentTurn + 1 > 12 ∧ s.currentRound < 6) := by
    rw [hInv.round_eq]
    intro h
    omega
  have hrounds := pickCard_rounds s i rs
  rw [if_neg hcond] at hrounds
  obtain ⟨hplen, hpcards⟩ := postRemovalRound_packs s 6 12 i rs hInv hi
  have hpost_empty : ∀ p ∈ (postRemovalRound s i rs).packs, p.cards = [] := by
    intro p hp
    have := hpcards p hp
    simpa [List.length_eq_zero] using this
  refine ⟨?_, ?_, ?_⟩
  · rw [pickCard_isComplete, if_pos ?_]
    rw [hInv.turn_eq, hInv.round_eq]
    exact ⟨by omega, by omega⟩
  · rw [pickCard_picks, List.length_append, hInv.picks_len]
    simp
  · rw [hrounds]
    intro round hr
    rcases List.mem_append.mp hr with h | h
    · exact hInv.history_empty round h
    · have : round = postRemovalRound s i rs := by simpa using h
      rw [this]
      exact hpost_empty

/-- Running any valid pick sequence that exhausts the remaining
`72 - progress` turns lands in the completed end state: flag set, 72
picks, all packs of all rounds empty. -/
theorem inv_run : ∀ (idxs : List Nat) (s : DraftState) (r t : Nat) (rs : List Nat),
    Inv s r t → 12 * (r - 1) + (t - 1) + idxs.length = 72 →
    validPicks s idxs rs = true →
    (pickSeq s idxs rs).1.isComplete = true ∧
    (pickSeq s idxs rs).1.picks.length = 72 ∧
    ∀ round ∈ (pickSeq s idxs rs).1.rounds, ∀ p ∈ round.packs, p.cards = []
  | [], s, r, t, rs, hInv, hprog, _ => by
    exfalso
    have h1 := hInv.t_le
    have h2 := hInv.r_le
    simp at hprog
    omega
  | i :: is, s, r, t, rs, hInv, hprog, hvalid => by
    simp only [validPicks, Bool.and_eq_true, decide_eq_true_eq] at hvalid
    obtain ⟨hi, hrest⟩ := hvalid
    simp only [List.length_cons] at hprog
    by_cases ht : t < 12
    · have hInv' := inv_step_mid s r t i rs hInv ht hi
      have hrun := inv_run is (pickCard s i rs).1 r (t + 1) (pickCard s i rs).2 hInv'
        (by have := hInv.t_ge; omega) hrest
      simpa [pickSeq] using hrun
    · have ht12 : t = 12 := by have := hInv.t_le; omega
      subst ht12
      by_cases hr : r < 6
      · have hInv' := inv_step_round s r i rs hInv hr hi
        have hrun := inv_run is (pickCard s i rs).1 (r + 1) 1 (pickCard s i rs).2 hInv'
          (by have := hInv.r_ge; omega) hrest
        simpa [pickSeq] using hrun
      · have hr6 : r = 6 := by have := hInv.r_le; omega
        subst hr6
        have his : is = [] := List.length_eq_zero.mp (by omega)
        subst his
        have hfin := inv_step_final s i rs hInv hi
        simpa [pickSeq] using hfin

/-- A freshly initialised draft over a pool of at least 12 cards
satisfies the invariant at round 1, turn 1. -/
theorem createNewDraft_inv (pool : List Card) (rs0 : List Nat)
    (hpool : 12 ≤ pool.length) : Inv (createNewDraft pool rs0).1 1 1 := by
  refine ⟨by simp [createNewDraft], by simp [createNewDraft], rfl, rfl,
    le_refl 1, by omega, le_refl 1, by omega, rfl, ?_, ?_, ?_, rfl, ?_⟩
  · simpa [createNewDraft] using hpool
  · simp only [createNewDraft, List.getLastD]
    exact createRound_packs_length 1 pool rs0
  · simp only [createNewDraft, List.getLastD]
    intro p hp
    have := createRound_pack_cards_length 1 pool rs0 p hp
    omega
  · simp [createNewDraft]

/-- Claim C3: every pack of every created round starts with exactly 12
cards when the pool has at least 12; any 72-pick valid run from
initialisation completes the draft with 72 picks and leaves every pack
of every round — in particular of each completed round — at exactly 0
cards. -/
theorem draft_runs_to_completion (pool : List Card) (rs0 rs : List Nat) (idxs : List Nat)
    (hpool : 12 ≤ pool.length) (hlen : idxs.length = 72)
    (hvalid : validPicks (createNewDraft pool rs0).1 idxs rs = true) :
    (∀ (n : Nat) (rs' : List Nat),
      (createRound n pool rs').1.packs.length = 6 ∧
      ∀ pk ∈ (createRound n pool rs').1.packs, pk.cards.length = 12) ∧
    (pickSeq (createNewDraft pool rs0).1 idxs rs).1.isComplete = true ∧
    (pickSeq (createNewDraft pool rs0).1 idxs rs).1.picks.length = 72 ∧
    ∀ round ∈ (pickSeq (createNewDraft pool rs0).1 idxs rs).1.rounds,
      ∀ p ∈ round.packs, p.cards = [] := by
  refine ⟨?_, ?_⟩
  · intro n rs'
    refine ⟨createRound_packs_length n pool rs', ?_⟩
    intro pk hpk
    have := createRound_pack_cards_length n pool rs' pk hpk
    omega
  · exact inv_run idxs (createNewDraft pool rs0).1 1 1 rs
      (createNewDraft_inv pool rs0 hpool) (by simpa using hlen) hvalid

/-- After the splice of a mid-round pick every pack is still non-empty. -/
theorem splicedPacks_all_nonempty (s : DraftState) (r t i : Nat)
    (hInv : Inv s r t) (ht : t < 12) (hi : i < (activePackOf s).cards.length) :
    ∀ p ∈ splicedPacks s i, p.cards ≠ [] := by
  have hpi : getActivePackIndex s.currentTurn < 6 := Nat.mod_lt _ (by omega)
  have hpacks := hInv.packs_len
  have hactive_len : (activePackOf s).cards.length = 13 - t :=
    hInv.pack_cards _ (by unfold activePackOf; exact getD_mem_of_lt _ _ _ (by omega))
  have hsp_len : (splicedPacks s i).length = 6 := by
    unfold splicedPacks
    rw [List.length_set, hpacks]
  apply forall_mem_of_getD (fun p => p.cards ≠ []) emptyPack
  intro j hj
  rw [hsp_len] at hj
  intro hemp
  by_cases hjpi : j = getActivePackIndex s.currentTurn
  · have heq : (splicedPacks s i).getD j emptyPack =
        { activePackOf s with cards := (activePackOf s).cards.eraseIdx i } := by
      unfold splicedPacks
      rw [hjpi]
      exact getD_set_self _ _ _ _ (by omega)
    rw [heq] at hemp
    have : ((activePackOf s).cards.eraseIdx i).length = 0 := by
      simpa [List.length_eq_zero] using hemp
    rw [List.length_eraseIdx_of_lt hi] at this
    omega
  · have heq : (splicedPacks s i).getD j emptyPack =
        (s.rounds.getLastD emptyRound).packs.getD j emptyPack := by
      unfold splicedPacks
      exact getD_set_ne _ _ _ _ j (by omega) (fun h => hjpi h.symm)
    rw [heq] at hemp
    have hmem : (s.rounds.getLastD emptyRound).packs.getD j emptyPack ∈
        (s.rounds.getLastD emptyRound).packs := getD_mem_of_lt _ _ _ (by omega)
    have := hInv.pack_cards _ hmem
    rw [hemp] at this
    simp at this
    omega

/-- On a mid-round pick under the invariant, exactly 5 other packs lose
a card. -/
theorem loopOut_count (s : DraftState) (r t i : Nat) (rs : List Nat)
    (hInv : Inv s r t) (ht : t < 12) (hi : i < (activePackOf s).cards.length) :
    (loopOut s i rs).2.1 = 5 := by
  have hpi : getActivePackIndex s.currentTurn < 6 := Nat.mod_lt _ (by omega)
  have hsp_len : (splicedPacks s i).length = 6 := by
    unfold splicedPacks
    rw [List.length_set, hInv.packs_len]
  unfold loopOut
  rw [removeLoop_count, countP_removal_all_nonempty (splicedPacks s i) 0
    (getActivePackIndex s.currentTurn) (splicedPacks_all_nonempty s r t i hInv ht hi)
    (Nat.zero_le _) (by omega), hsp_len]

/-- Claim C9: one valid pick from a freshly initialised draft over a
pool of at least 12 cards leaves the active pack and each of the other
5 packs at exactly 11 cards, logs exactly one event, and that event's
`removedCounts` is 5. -/
theorem first_pick_scenario (pool : List Card) (rs0 rs : List Nat) (i : Nat)
    (hpool : 12 ≤ pool.length) (hi : i < 12) :
    ((((pickCard (createNewDraft pool rs0).1 i rs).1.rounds.getLastD
        emptyRound).packs.getD 0 emptyPack).cards.length = 11) ∧
    (∀ j, j < 6 →
      (((pickCard (createNewDraft pool rs0).1 i rs).1.rounds.getLastD
          emptyRound).packs.getD j emptyPack).cards.length = 11) ∧
    (pickCard (createNewDraft pool rs0).1 i rs).1.log.length = 1 ∧
    ∀ e ∈ (pickCard (createNewDraft pool rs0).1 i rs).1.log, e.removedCounts = 5 := by
  have hInv := createNewDraft_inv pool rs0 hpool
  have hiv : i < (activePackOf (createNewDraft pool rs0).1).cards.length := by
    have hactive_len : (activePackOf (createNewDraft pool rs0).1).cards.length = 12 := by
      have := hInv.pack_cards _ (show activePackOf (createNewDraft pool rs0).1 ∈ _ from by
        unfold activePackOf
        exact getD_mem_of_lt _ _ _ (by
          rw [hInv.packs_len]
          exact Nat.mod_lt _ (by omega)))
      omega
    omega
  have hcond : ¬ ((createNewDraft pool rs0).1.currentTurn + 1 > 12 ∧
      (createNewDraft pool rs0).1.currentRound < 6) := by
    rw [hInv.turn_eq]
    intro h
    omega
  have hrounds := pickCard_rounds (createNewDraft pool rs0).1 i rs
  rw [if_neg hcond] at hrounds
  obtain ⟨hplen, hpcards⟩ :=
    postRemovalRound_packs (createNewDraft pool rs0).1 1 1 i rs hInv hiv
  have hlast : (pickCard (createNewDraft pool rs0).1 i rs).1.rounds.getLastD emptyRound =
      postRemovalRound (createNewDraft pool rs0).1 i rs := by
    rw [hrounds, List.getLastD_concat]
  have hgetD : ∀ j, j < 6 →
      (((pickCard (createNewDraft pool rs0).1 i rs).1.rounds.getLastD
          emptyRound).packs.getD j emptyPack).cards.length = 11 := by
    intro j hj
    rw [hlast]
    have hmem : (postRemovalRound (createNewDraft pool rs0).1 i rs).packs.getD j emptyPack ∈
        (postRemovalRound (createNewDraft pool rs0).1 i rs).packs :=
      getD_mem_of_lt _ _ _ (by omega)
    have := hpcards _ hmem
    omega
  refine ⟨hgetD 0 (by omega), hgetD, ?_, ?_⟩
  · rw [pickCard_log_entry]
    have : (createNewDraft pool rs0).1.log = [] := rfl
    rw [this]
    rfl
  · rw [pickCard_log_entry]
    have : (createNewDraft pool rs0).1.log = [] := rfl
    rw [this]
    intro e he
    simp only [List.nil_append, List.mem_singleton] at he
    subst he
    exact loopOut_count (createNewDraft pool rs0).1 1 1 i rs hInv (by omega) hiv

/-! ### The mixed removal policy (claim C4) -/

/-- After any pick, the round that was active sits (rewritten) at its
old position, whether or not a new round was appended. -/
theorem pickCard_round_at_old_last (s : DraftState) (i : Nat) (rs : List Nat)
    (hr : s.rounds ≠ []) :
    (pickCard s i rs).1.rounds.getD (s.rounds.length - 1) emptyRound =
      postRemovalRound s i rs := by
  have hpos : 0 < s.rounds.length := List.length_pos.mpr hr
  have hboundary : ∀ (post : RoundState),
      (s.rounds.dropLast ++ [post]).getD (s.rounds.length - 1) emptyRound = post := by
    intro post
    rw [List.getD_eq_getElem?_getD,
      List.getElem?_append_right (by simp only [List.length_dropLast]; omega)]
    simp
  rw [pickCard_rounds]
  split
  · rw [List.getD_eq_getElem?_getD, List.getElem?_append,
      if_pos (by simp only [List.length_append, List.length_dropLast,
        List.length_singleton]; omega)]
    rw [← List.getD_eq_getElem?_getD]
    exact hboundary _
  · exact hboundary _

set_option maxHeartbeats 1000000 in
/-- Claim C4: on every pick, each non-active pack is skipped when empty
and otherwise loses exactly one card chosen by the mixed policy — the
coin picks either the uniform `randomInt` branch or the
`findRarestCardIndex` branch, whose result is always an index of maximal
rarity rank (candidate ties being the positions attaining the maximal
rank, one of which the tie-break draw selects); the rank table is
Common=1, …, Special=9 with missing or unrecognized rarities at 0. -/
theorem mixed_removal_policy (s : DraftState) (i : Nat) (rs : List Nat) (j : Nat)
    (hr : s.rounds ≠ [])
    (hpi : getActivePackIndex s.currentTurn < (s.rounds.getLastD emptyRound).packs.length)
    (hj : j < (s.rounds.getLastD emptyRound).packs.length)
    (hjne : j ≠ getActivePackIndex s.currentTurn) :
    (getRarityValue (some "Common") = 1 ∧ getRarityValue (some "Uncommon") = 2 ∧
     getRarityValue (some "Rare") = 3 ∧ getRarityValue (some "Super Rare") = 4 ∧
     getRarityValue (some "Legendary") = 5 ∧ getRarityValue (some "Epic") = 6 ∧
     getRarityValue (some "Iconic") = 7 ∧ getRarityValue (some "Enchanted") = 8 ∧
     getRarityValue (some "Special") = 9 ∧ getRarityValue none = 0) ∧
    (∀ r : String,
      r ∉ (["Common", "Uncommon", "Rare", "Super Rare", "Legendary", "Epic",
            "Iconic", "Enchanted", "Special"] : List String) →
      getRarityValue (some r) = 0) ∧
    (((s.rounds.getLastD emptyRound).packs.getD j emptyPack).cards = [] →
      ((pickCard s i rs).1.rounds.getD (s.rounds.length - 1) emptyRound).packs.getD j
          emptyPack =
        (s.rounds.getLastD emptyRound).packs.getD j emptyPack) ∧
    (((s.rounds.getLastD emptyRound).packs.getD j emptyPack).cards ≠ [] →
      ∃ rs',
        ((pickCard s i rs).1.rounds.getD (s.rounds.length - 1) emptyRound).packs.getD j
            emptyPack =
          (mixedRemoval ((s.rounds.getLastD emptyRound).packs.getD j emptyPack) rs').1 ∧
        (((pickCard s i rs).1.rounds.getD (s.rounds.length - 1) emptyRound).packs.getD j
            emptyPack).cards.length =
          ((s.rounds.getLastD emptyRound).packs.getD j emptyPack).cards.length - 1) ∧
    (∀ (p : Pack) (rs' : List Nat),
      (mixedRemoval p rs').1 =
        { p with cards := p.cards.eraseIdx (if (randomBelowHalf rs').1 then (randomInt p.cards.length (randomBelowHalf rs').2).1 else (findRarestCardIndex p.cards (randomBelowHalf rs').2).1.toNat) }) ∧
    (∀ (cards : List Card) (rs' : List Nat), cards ≠ [] →
      (findRarestCardIndex cards rs').1.toNat < cards.length ∧
      ∀ k, k < cards.length →
        rarityAt cards k ≤ rarityAt cards (findRarestCardIndex cards rs').1.toNat) ∧
    (∀ (cards : List Card) (k : Nat), k < cards.length →
      (k ∈ (rarestScan cards).2 ↔ rarityAt cards k = (rarestScan cards).1)) := by
  have hspl_len : (splicedPacks s i).length =
      (s.rounds.getLastD emptyRound).packs.length := by
    unfold splicedPacks
    exact List.length_set _ _ _
  have hspl_j : (splicedPacks s i).getD j emptyPack =
      (s.rounds.getLastD emptyRound).packs.getD j emptyPack := by
    unfold splicedPacks
    exact getD_set_ne _ _ _ _ j hj (fun h => hjne h.symm)
  have hpos : (pickCard s i rs).1.rounds.getD (s.rounds.length - 1) emptyRound =
      postRemovalRound s i rs := pickCard_round_at_old_last s i rs hr
  obtain ⟨hc1, hc2, hc3⟩ := removeLoop_getD (getActivePackIndex s.currentTurn)
    (splicedPacks s i) 0 rs j (by omega)
  refine ⟨by decide, ?_, ?_, ?_, ?_, ?_, ?_⟩
  · intro r hrmem
    simp only [getRarityValue]
    split_ifs with h0 h1 h2 h3 h4 h5 h6 h7 h8 h9 <;>
      first
        | rfl
        | (exfalso; apply hrmem; subst_vars; decide)
  · intro hemp
    rw [hpos]
    show (loopOut s i rs).1.getD j emptyPack = _
    unfold loopOut
    rw [hc2 (by omega) (by rwa [hspl_j]), hspl_j]
  · intro hne
    obtain ⟨rs', hrs'⟩ := hc3 (by omega) (by rwa [hspl_j])
    refine ⟨rs', ?_, ?_⟩
    · rw [hpos]
      show (loopOut s i rs).1.getD j emptyPack = _
      unfold loopOut
      rw [hrs', hspl_j]
    · rw [hpos]
      show ((loopOut s i rs).1.getD j emptyPack).cards.length = _
      unfold loopOut
      rw [hrs', hspl_j, mixedRemoval_cards_length _ _ hne]
  · intro p rs'
    by_cases h : (randomBelowHalf rs').1 <;> simp [mixedRemoval, h]
  · intro cards rs' hne
    exact findRarestCardIndex_max cards rs' hne
  · intro cards k hk
    exact ⟨fun hmem => (rarestScan_snd_mem cards k hmem).2,
      fun hval => rarestScan_complete cards k hk hval⟩

/-- Witness for C4 at the concrete two-pack state, non-active pack 1. -/
theorem mixed_removal_policy_witness :
    (getRarityValue (some "Common") = 1 ∧ getRarityValue (some "Uncommon") = 2 ∧
     getRarityValue (some "Rare") = 3 ∧ getRarityValue (some "Super Rare") = 4 ∧
     getRarityValue (some "Legendary") = 5 ∧ getRarityValue (some "Epic") = 6 ∧
     getRarityValue (some "Iconic") = 7 ∧ getRarityValue (some "Enchanted") = 8 ∧
     getRarityValue (some "Special") = 9 ∧ getRarityValue none = 0) ∧
    (∀ r : String,
      r ∉ (["Common", "Uncommon", "Rare", "Super Rare", "Legendary", "Epic",
            "Iconic", "Enchanted", "Special"] : List String) →
      getRarityValue (some r) = 0) ∧
    (((wStart.rounds.getLastD emptyRound).packs.getD 1 emptyPack).cards = [] →
      ((pickCard wStart 0 []).1.rounds.getD (wStart.rounds.length - 1) emptyRound).packs.getD 1
          emptyPack =
        (wStart.rounds.getLastD emptyRound).packs.getD 1 emptyPack) ∧
    (((wStart.rounds.getLastD emptyRound).packs.getD 1 emptyPack).cards ≠ [] →
      ∃ rs',
        ((pickCard wStart 0 []).1.rounds.getD (wStart.rounds.length - 1) emptyRound).packs.getD 1
            emptyPack =
          (mixedRemoval ((wStart.rounds.getLastD emptyRound).packs.getD 1 emptyPack) rs').1 ∧
        (((pickCard wStart 0 []).1.rounds.getD (wStart.rounds.length - 1) emptyRound).packs.getD 1
            emptyPack).cards.length =
          ((wStart.rounds.getLastD emptyRound).packs.getD 1 emptyPack).cards.length - 1) ∧
    (∀ (p : Pack) (rs' : List Nat),
      (mixedRemoval p rs').1 =
        { p with cards := p.cards.eraseIdx (if (randomBelowHalf rs').1 then (randomInt p.cards.length (randomBelowHalf rs').2).1 else (findRarestCardIndex p.cards (randomBelowHalf rs').2).1.toNat) }) ∧
    (∀ (cards : List Card) (rs' : List Nat), cards ≠ [] →
      (findRarestCardIndex cards rs').1.toNat < cards.length ∧
      ∀ k, k < cards.length →
        rarityAt cards k ≤ rarityAt cards (findRarestCardIndex cards rs').1.toNat) ∧
    (∀ (cards : List Card) (k : Nat), k < cards.length →
      (k ∈ (rarestScan cards).2 ↔ rarityAt cards k = (rarestScan cards).1)) :=
  mixed_removal_policy wStart 0 [] 1 (by decide) (by decide) (by decide) (by decide)

/-! ### `resetRound` (claim C6) -/

/-- `findIdx?` never returns an index below its start. -/
theorem findIdx?_ge_start {α : Type} (p : α → Bool) :
    ∀ (l : List α) (s i : Nat), l.findIdx? p s = some i → s ≤ i
  | [], _, _, h => by simp at h
  | a :: as, s, i, h => by
    rw [List.findIdx?_cons] at h
    split at h
    · simp at h
      omega
    · have := findIdx?_ge_start p as (s + 1) i h
      omega

/-- `findIdx?` returns an index within the scanned range. -/
theorem findIdx?_lt_start_add {α : Type} (p : α → Bool) :
    ∀ (l : List α) (s i : Nat), l.findIdx? p s = some i → i < s + l.length
  | [], _, _, h => by simp at h
  | a :: as, s, i, h => by
    rw [List.findIdx?_cons] at h
    split at h
    · simp at h
      simp
      omega
    · have := findIdx?_lt_start_add p as (s + 1) i h
      simp
      omega

/-- When no element matches, the negated `takeWhile` keeps the whole list. -/
theorem findIdx?_none_takeWhile {α : Type} (p : α → Bool) :
    ∀ (l : List α) (s : Nat), l.findIdx? p s = none →
      l.takeWhile (fun a => !p a) = l
  | [], _, _ => rfl
  | a :: as, s, h => by
    rw [List.findIdx?_cons] at h
    split at h
    · simp at h
    · rename_i hpa
      rw [List.takeWhile_cons]
      rw [if_pos (by simp [hpa])]
      rw [findIdx?_none_takeWhile p as (s + 1) h]

/-- Truncating at the first match is the negated `takeWhile`. -/
theorem findIdx?_some_take {α : Type} (p : α → Bool) :
    ∀ (l : List α) (s i : Nat), l.findIdx? p s = some i →
      l.take (i - s) = l.takeWhile (fun a => !p a)
  | [], _, _, h => by simp at h
  | a :: as, s, i, h => by
    rw [List.findIdx?_cons] at h
    split at h
    · rename_i hpa
      simp at h
      subst h
      simp [List.takeWhile_cons, hpa]
    · rename_i hpa
      have hge := findIdx?_ge_start p as (s + 1) i h
      have hrec := findIdx?_some_take p as (s + 1) i h
      have hsub : i - s = (i - (s + 1)) + 1 := by omega
      rw [hsub, List.take_succ_cons, hrec, List.takeWhile_cons, if_pos (by simp [hpa])]

/-- Replacing the last round leaves the earlier rounds untouched. -/
theorem setLast_dropLast : ∀ (l : List RoundState) (r : RoundState),
    (setLast l r).dropLast = l.dropLast
  | [], _ => rfl
  | [x], r => rfl
  | x :: y :: ys, r => by
    have : setLast (x :: y :: ys) r = x :: setLast (y :: ys) r := by
      unfold setLast
      simp only [List.length_cons, Nat.add_sub_cancel]
      rfl
    rw [this]
    have hne : setLast (y :: ys) r ≠ [] := by
      unfold setLast
      intro hemp
      have := congrArg List.length hemp
      simp at this
    rw [List.dropLast_cons_of_ne_nil hne, List.dropLast_cons_of_ne_nil (by simp),
      setLast_dropLast (y :: ys) r]

/-- Replacing the last round makes it the last element. -/
theorem setLast_getLast? (l : List RoundState) (r : RoundState) (h : l ≠ []) :
    (setLast l r).getLast? = some r := by
  have hpos : 0 < l.length := List.length_pos.mpr h
  have hlen : (setLast l r).length = l.length := by
    unfold setLast
    exact List.length_set l _ r
  rw [List.getLast?_eq_getElem?, hlen]
  unfold setLast
  rw [List.getElem?_eq_getElem (by simp; omega)]
  rw [List.getElem_set_self]

/-- Claim C6: `resetRound` truncates the picks and the log to the prefix
before the first event of the current round, resets the turn, replaces
the current round by six freshly drawn packs, clears the undo buffer,
and leaves the round number, the master pool and all prior rounds
untouched. -/
theorem resetRound_spec (s : DraftState) (rs : List Nat)
    (hlen : s.picks.length = s.log.length) :
    (resetRound s rs).1.log =
      s.log.takeWhile (fun e => !(e.round == s.currentRound)) ∧
    (∀ e ∈ (resetRound s rs).1.log, e.round ≠ s.currentRound) ∧
    (resetRound s rs).1.picks =
      s.picks.take (s.log.takeWhile (fun e => !(e.round == s.currentRound))).length ∧
    (resetRound s rs).1.currentTurn = 1 ∧
    (resetRound s rs).1.undoBuffer = none ∧
    (resetRound s rs).1.currentRound = s.currentRound ∧
    (resetRound s rs).1.masterCards = s.masterCards ∧
    (resetRound s rs).1.rounds.dropLast = s.rounds.dropLast ∧
    (s.rounds ≠ [] → (resetRound s rs).1.rounds.getLast? =
      some (createRound s.currentRound s.masterCards rs).1) ∧
    (createRound s.currentRound s.masterCards rs).1.roundNumber = s.currentRound ∧
    (createRound s.currentRound s.masterCards rs).1.packs.length = 6 ∧
    (∀ pk ∈ (createRound s.currentRound s.masterCards rs).1.packs,
      pk.cards.length = min 12 s.masterCards.length) := by
  have hlog : (resetRound s rs).1.log =
      s.log.takeWhile (fun e => !(e.round == s.currentRound)) := by
    unfold resetRound
    dsimp only
    cases hfind : s.log.findIdx? (fun e => e.round == s.currentRound) with
    | none =>
      dsimp only
      exact (findIdx?_none_takeWhile _ s.log 0 hfind).symm
    | some idx =>
      dsimp only
      have := findIdx?_some_take _ s.log 0 idx hfind
      simpa using this
  have hpicks : (resetRound s rs).1.picks =
      s.picks.take (s.log.takeWhile (fun e => !(e.round == s.currentRound))).length := by
    unfold resetRound
    dsimp only
    cases hfind : s.log.findIdx? (fun e => e.round == s.currentRound) with
    | none =>
      dsimp only
      rw [findIdx?_none_takeWhile _ s.log 0 hfind, ← hlen, List.take_length]
    | some idx =>
      dsimp only
      have htake := findIdx?_some_take _ s.log 0 idx hfind
      have hidx_lt : idx < s.log.length := by
        have := findIdx?_lt_start_add _ s.log 0 idx hfind
        omega
      have hlength : (s.log.takeWhile (fun e => !(e.round == s.currentRound))).length = idx := by
        rw [← htake]
        simp
        omega
      rw [hlength]
  refine ⟨hlog, ?_, hpicks, rfl, rfl, rfl, rfl, ?_, ?_, rfl,
    createRound_packs_length _ _ _, createRound_pack_cards_length _ _ _⟩
  · intro e he
    rw [hlog] at he
    have := List.mem_takeWhile_imp he
    simpa using this
  · show (setLast s.rounds (createRound s.currentRound s.masterCards rs).1).dropLast =
      s.rounds.dropLast
    exact setLast_dropLast s.rounds _
  · intro h
    show (setLast s.rounds (createRound s.currentRound s.masterCards rs).1).getLast? = _
    exact setLast_getLast? s.rounds _ h

/-- Witness for C6 at the concrete round-2 state. -/
theorem resetRound_spec_witness :
    (resetRound wResetState []).1.log =
      wResetState.log.takeWhile (fun e => !(e.round == wResetState.currentRound)) ∧
    (∀ e ∈ (resetRound wResetState []).1.log, e.round ≠ wResetState.currentRound) ∧
    (resetRound wResetState []).1.picks =
      wResetState.picks.take
        (wResetState.log.takeWhile (fun e => !(e.round == wResetState.currentRound))).length ∧
    (resetRound wResetState []).1.currentTurn = 1 ∧
    (resetRound wResetState []).1.undoBuffer = none ∧
    (resetRound wResetState []).1.currentRound = wResetState.currentRound ∧
    (resetRound wResetState []).1.masterCards = wResetState.masterCards ∧
    (resetRound wResetState []).1.rounds.dropLast = wResetState.rounds.dropLast ∧
    (wResetState.rounds ≠ [] → (resetRound wResetState []).1.rounds.getLast? =
      some (createRound wResetState.currentRound wResetState.masterCards []).1) ∧
    (createRound wResetState.currentRound wResetState.masterCards []).1.roundNumber =
      wResetState.currentRound ∧
    (createRound wResetState.currentRound wResetState.masterCards []).1.packs.length = 6 ∧
    (∀ pk ∈ (createRound wResetState.currentRound wResetState.masterCards []).1.packs,
      pk.cards.length = min 12 wResetState.masterCards.length) :=
  resetRound_spec wResetState [] (by decide)

/-- Witness for C3: the always-pick-index-0 run of 72 turns over a
12-card pool. -/
theorem draft_runs_to_completion_witness :
    (∀ (n : Nat) (rs' : List Nat),
      (createRound n w12pool rs').1.packs.length = 6 ∧
      ∀ pk ∈ (createRound n w12pool rs').1.packs, pk.cards.length = 12) ∧
    (pickSeq (createNewDraft w12pool []).1 (List.replicate 72 0) []).1.isComplete = true ∧
    (pickSeq (createNewDraft w12pool []).1 (List.replicate 72 0) []).1.picks.length = 72 ∧
    ∀ round ∈ (pickSeq (createNewDraft w12pool []).1 (List.replicate 72 0) []).1.rounds,
      ∀ p ∈ round.packs, p.cards = [] :=
  draft_runs_to_completion w12pool [] [] (List.replicate 72 0)
    (by decide) (by decide) (by decide)

/-- Witness for C9: the first pick at index 0 over the 12-card pool. -/
theorem first_pick_scenario_witness :
    ((((pickCard (createNewDraft w12pool []).1 0 []).1.rounds.getLastD
        emptyRound).packs.getD 0 emptyPack).cards.length = 11) ∧
    (∀ j, j < 6 →
      (((pickCard (createNewDraft w12pool []).1 0 []).1.rounds.getLastD
          emptyRound).packs.getD j emptyPack).cards.length = 11) ∧
    (pickCard (createNewDraft w12pool []).1 0 []).1.log.length = 1 ∧
    ∀ e ∈ (pickCard (createNewDraft w12pool []).1 0 []).1.log, e.removedCounts = 5 :=
  first_pick_scenario w12pool [] [] 0 (by decide) (by decide)

/-! ### The tally and the canonical export (claim C7) -/

/-- Splitting at a pipe is unambiguous when neither prefix contains one. -/
theorem append_pipe_inj : ∀ (xs ys as bs : List Char),
    '|' ∉ xs → '|' ∉ ys → xs ++ '|' :: as = ys ++ '|' :: bs → xs = ys ∧ as = bs
  | [], [], as, bs, _, _, h => by simpa using h
  | [], y :: ys, as, bs, _, h2, h => by
    simp only [List.nil_append, List.cons_append, List.cons.injEq] at h
    exfalso
    apply h2
    rw [← h.1]
    exact List.mem_cons_self _ _
  | x :: xs, [], as, bs, h1, _, h => by
    simp only [List.nil_append, List.cons_append, List.cons.injEq] at h
    exfalso
    apply h1
    rw [h.1]
    exact List.mem_cons_self _ _
  | x :: xs, y :: ys, as, bs, h1, h2, h => by
    simp only [List.cons_append, List.cons.injEq] at h
    obtain ⟨hxy, hrest⟩ := h
    obtain ⟨hl, hr⟩ := append_pipe_inj xs ys as bs
      (fun hm => h1 (List.mem_cons_of_mem _ hm))
      (fun hm => h2 (List.mem_cons_of_mem _ hm)) hrest
    exact ⟨by rw [hxy, hl], hr⟩

/-- The composite key determines the pair when the names are pipe-free. -/
theorem tallyKey_inj (f₁ c₁ f₂ c₂ : String)
    (h1 : '|' ∉ f₁.data) (h2 : '|' ∉ f₂.data)
    (he : tallyKey f₁ c₁ = tallyKey f₂ c₂) : f₁ = f₂ ∧ c₁ = c₂ := by
  unfold tallyKey at he
  rw [String.ext_iff] at he
  simp only [String.data_append] at he
  simp only [List.append_assoc, List.singleton_append] at he
  obtain ⟨hf, hc⟩ := append_pipe_inj f₁.data f₂.data c₁.data c₂.data h1 h2 he
  exact ⟨String.ext hf, String.ext hc⟩

/-- One `tallyBump` preserves the invariant. -/
theorem tallyBump_inv (h : List Card) (acc : List TallyEntry) (c : Card)
    (hi : TallyInv h acc) : TallyInv (h ++ [c]) (tallyBump acc c) := by
  unfold tallyBump
  by_cases hany : ∃ t ∈ acc, entryKey t = tallyKey c.fullName c.color
  · have hb : (acc.any fun t =>
        tallyKey t.fullName t.color = tallyKey c.fullName c.color) = true := by
      rw [List.any_eq_true]
      obtain ⟨t, ht, he⟩ := hany
      exact ⟨t, ht, by simpa [entryKey] using he⟩
    rw [if_pos hb]
    have hgname : ∀ t : TallyEntry,
        ((if tallyKey t.fullName t.color = tallyKey c.fullName c.color then
          { t with count := t.count + 1 } else t) : TallyEntry).fullName = t.fullName := by
      intro t
      split <;> rfl
    have hgcolor : ∀ t : TallyEntry,
        ((if tallyKey t.fullName t.color = tallyKey c.fullName c.color then
          { t with count := t.count + 1 } else t) : TallyEntry).color = t.color := by
      intro t
      split <;> rfl
    have hgkey : ∀ t : TallyEntry,
        entryKey ((if tallyKey t.fullName t.color = tallyKey c.fullName c.color then
          { t with count := t.count + 1 } else t) : TallyEntry) = entryKey t := by
      intro t
      split <;> rfl
    refine ⟨?_, ?_, ?_, ?_⟩
    · have : (acc.map fun t =>
          if tallyKey t.fullName t.color = tallyKey c.fullName c.color then
            { t with count := t.count + 1 } else t).map entryKey = acc.map entryKey := by
        rw [List.map_map]
        exact List.map_congr_left (fun t _ => hgkey t)
      rw [this]
      exact hi.nodup
    · intro t' ht'
      obtain ⟨t, ht, rfl⟩ := List.mem_map.mp ht'
      rw [List.countP_append]
      by_cases hkey : tallyKey t.fullName t.color = tallyKey c.fullName c.color
      · rw [if_pos hkey]
        have hone : List.countP (fun c₀ =>
            tallyKey c₀.fullName c₀.color == entryKey ((
              { t with count := t.count + 1 } : TallyEntry))) [c] = 1 := by
          simp [List.countP_cons, entryKey]
          exact hkey.symm
        have hcnt := hi.counts t ht
        simp only [entryKey] at hcnt hone ⊢
        rw [hone, ← hcnt]
      · rw [if_neg hkey]
        have hzero : List.countP (fun c₀ =>
            tallyKey c₀.fullName c₀.color == entryKey t) [c] = 0 := by
          simp [List.countP_cons, entryKey]
          exact fun he => hkey he.symm
        have hcnt := hi.counts t ht
        simp only [entryKey] at hcnt hzero ⊢
        rw [hzero, ← hcnt]
        simp
    · intro t' ht'
      obtain ⟨t, ht, rfl⟩ := List.mem_map.mp ht'
      obtain ⟨c₀, hc₀, hname, hcolor⟩ := hi.source t ht
      exact ⟨c₀, List.mem_append_left _ hc₀, by rw [hgname]; exact hname,
        by rw [hgcolor]; exact hcolor⟩
    · intro c₀ hc₀
      rcases List.mem_append.mp hc₀ with hmem | hmem
      · obtain ⟨t, ht, hk⟩ := hi.complete c₀ hmem
        exact ⟨_, List.mem_map_of_mem _ ht, by rw [hgkey]; exact hk⟩
      · have hc : c₀ = c := by simpa using hmem
        subst hc
        obtain ⟨t, ht, he⟩ := hany
        exact ⟨_, List.mem_map_of_mem _ ht, by rw [hgkey]; exact he.symm⟩
  · have hb : (acc.any fun t =>
        tallyKey t.fullName t.color = tallyKey c.fullName c.color) = false := by
      rw [Bool.eq_false_iff]
      intro habs
      rw [List.any_eq_true] at habs
      obtain ⟨t, ht, he⟩ := habs
      exact hany ⟨t, ht, by simpa [entryKey] using he⟩
    rw [if_neg (by rw [hb]; exact Bool.false_ne_true)]
    have hknew : entryKey ({ count := 1, fullName := c.fullName, color := c.color } :
        TallyEntry) = tallyKey c.fullName c.color := rfl
    refine ⟨?_, ?_, ?_, ?_⟩
    · rw [List.map_append]
      rw [List.nodup_append]
      refine ⟨hi.nodup, by simp, ?_⟩
      intro k hk
      obtain ⟨t, ht, rfl⟩ := List.mem_map.mp hk
      simp only [List.map_cons, List.map_nil, List.mem_singleton, hknew]
      intro he
      exact hany ⟨t, ht, he⟩
    · intro t ht
      rcases List.mem_append.mp ht with hmem | hmem
      · rw [List.countP_append]
        have hzero : List.countP (fun c₀ =>
            tallyKey c₀.fullName c₀.color == entryKey t) [c] = 0 := by
          simp [List.countP_cons]
          intro he
          exact hany ⟨t, hmem, he.symm⟩
        rw [hzero, ← hi.counts t hmem]
        simp
      · have ht' : t = { count := 1, fullName := c.fullName, color := c.color } := by
          simpa using hmem
        subst ht'
        rw [List.countP_append]
        have hzero : List.countP (fun c₀ =>
            tallyKey c₀.fullName c₀.color ==
              entryKey ({ count := 1, fullName := c.fullName, color := c.color } :
                TallyEntry)) h = 0 := by
          by_contra hne
          have hpos : 0 < List.countP (fun c₀ =>
              tallyKey c₀.fullName c₀.color ==
                entryKey ({ count := 1, fullName := c.fullName, color := c.color } :
                  TallyEntry)) h := Nat.pos_of_ne_zero hne
          rw [List.countP_pos] at hpos
          obtain ⟨c₀, hc₀, hp⟩ := hpos
          rw [hknew] at hp
          have hkeq : tallyKey c₀.fullName c₀.color = tallyKey c.fullName c.color := by
            simpa using hp
          obtain ⟨t', ht', hk'⟩ := hi.complete c₀ hc₀
          exact hany ⟨t', ht', by rw [← hk', hkeq]⟩
        rw [hzero]
        simp [List.countP_cons, hknew]
    · intro t ht
      rcases List.mem_append.mp ht with hmem | hmem
      · obtain ⟨c₀, hc₀, hname, hcolor⟩ := hi.source t hmem
        exact ⟨c₀, List.mem_append_left _ hc₀, hname, hcolor⟩
      · have ht' : t = { count := 1, fullName := c.fullName, color := c.color } := by
          simpa using hmem
        subst ht'
        exact ⟨c, List.mem_append_right _ (by simp), rfl, rfl⟩
    · intro c₀ hc₀
      rcases List.mem_append.mp hc₀ with hmem | hmem
      · obtain ⟨t, ht, hk⟩ := hi.complete c₀ hmem
        exact ⟨t, List.mem_append_left _ ht, hk⟩
      · have hc : c₀ = c := by simpa using hmem
        subst hc
        exact ⟨_, List.mem_append_right _ (by simp), hknew.symm⟩

/-- The grouping fold keeps the invariant over any consumed prefix. -/
theorem tally_fold_inv : ∀ (l h : List Card) (acc : List TallyEntry),
    TallyInv h acc → TallyInv (h ++ l) (l.foldl tallyBump acc)
  | [], h, acc, hi => by simpa using hi
  | c :: cs, h, acc, hi => by
    have hstep := tallyBump_inv h acc c hi
    have hrec := tally_fold_inv cs (h ++ [c]) (tallyBump acc c) hstep
    simpa [List.append_assoc] using hrec

/-- The invariant of the finished grouping pass. -/
theorem tally_inv (picks : List Card) :
    TallyInv picks (picks.foldl tallyBump []) := by
  have hbase : TallyInv [] [] := ⟨by simp, by simp, by simp, by simp⟩
  simpa using tally_fold_inv picks [] [] hbase

/-- The non-`gt` outcomes of the comparator are exactly `≤`. -/
theorem localeCompare_ne_gt (a b : String) :
    (localeCompare a b != Ordering.gt) = true ↔ a ≤ b := by
  unfold localeCompare
  by_cases h1 : a < b
  · rw [if_pos h1]
    exact ⟨fun _ => le_of_lt h1, fun _ => rfl⟩
  · by_cases h2 : a = b
    · rw [if_neg h1, if_pos h2]
      exact ⟨fun _ => le_of_eq h2, fun _ => rfl⟩
    · rw [if_neg h1, if_neg h2]
      constructor
      · intro habs
        exact absurd habs (by decide)
      · intro hle
        exact absurd hle (not_le.mpr (lt_of_le_of_ne (not_lt.mp h1) (Ne.symm h2)))

/-- The comparator as a proposition: count descending, ties by name
ascending. -/
theorem tallyLE_iff (a b : TallyEntry) :
    tallyLE a b = true ↔
      (b.count < a.count ∨ (a.count = b.count ∧ a.fullName ≤ b.fullName)) := by
  unfold tallyLE
  by_cases h : a.count = b.count
  · rw [if_neg (by simp [h])]
    constructor
    · intro hle
      exact Or.inr ⟨h, (localeCompare_ne_gt _ _).mp hle⟩
    · rintro (hlt | ⟨-, hle⟩)
      · omega
      · exact (localeCompare_ne_gt _ _).mpr hle
  · rw [if_pos (by simpa using h)]
    simp only [decide_eq_true_eq]
    constructor
    · exact Or.inl
    · rintro (hlt | ⟨heq, -⟩)
      · exact hlt
      · exact absurd heq h

/-- Transitivity of the comparator. -/
theorem tallyLE_trans (a b c : TallyEntry) (hab : tallyLE a b) (hbc : tallyLE b c) :
    tallyLE a c := by
  rw [tallyLE_iff] at hab hbc ⊢
  rcases hab with h1 | ⟨h1, h1'⟩ <;> rcases hbc with h2 | ⟨h2, h2'⟩
  · exact Or.inl (by omega)
  · exact Or.inl (by omega)
  · exact Or.inl (by omega)
  · exact Or.inr ⟨by omega, le_trans h1' h2'⟩

/-- Totality of the comparator. -/
theorem tallyLE_total (a b : TallyEntry) : tallyLE a b || tallyLE b a := by
  rw [Bool.or_eq_true, tallyLE_iff, tallyLE_iff]
  by_cases h : a.count = b.count
  · rcases le_total a.fullName b.fullName with hle | hle
    · exact Or.inl (Or.inr ⟨h, hle⟩)
    · exact Or.inr (Or.inr ⟨h.symm, hle⟩)
  · rcases Nat.lt_or_ge a.count b.count with hlt | hge
    · exact Or.inr (Or.inl hlt)
    · exact Or.inl (Or.inl (by omega))

/-- The sort is a permutation of the grouping pass. -/
theorem getTally_perm (picks : List Card) :
    List.Perm (getTally picks) (picks.foldl tallyBump []) :=
  List.mergeSort_perm _ _

/-- Claim C7 (amended): for picks whose names are pipe-free (so the
string key `fullName + "|" + color` is injective on the (fullName,
color) pairs), the canonical export is one `"<count> <fullName>"` line
per distinct (fullName, color) group, `count` being that group's
multiplicity, newline-joined in tally order: count descending, ties by
name ascending. -/
theorem canonical_export_spec (picks : List Card)
    (hp : ∀ c ∈ picks, '|' ∉ c.fullName.data) :
    generateCopyTextWithoutColor picks =
      joinSep "\n" ((getTally picks).map (fun t => toString t.count ++ " " ++ t.fullName)) ∧
    ((getTally picks).map (fun t => (t.fullName, t.color))).Nodup ∧
    (∀ t ∈ getTally picks,
      t.count = picks.countP (fun c => c.fullName == t.fullName && c.color == t.color) ∧
      ∃ c ∈ picks, c.fullName = t.fullName ∧ c.color = t.color) ∧
    (∀ c ∈ picks, ∃ t ∈ getTally picks, t.fullName = c.fullName ∧ t.color = c.color) ∧
    (getTally picks).Pairwise
      (fun a b => b.count < a.count ∨ (a.count = b.count ∧ a.fullName ≤ b.fullName)) := by
  have hinv := tally_inv picks
  have hperm := getTally_perm picks
  have hmem : ∀ t, t ∈ getTally picks ↔ t ∈ picks.foldl tallyBump [] :=
    fun t => hperm.mem_iff
  have hsource : ∀ t ∈ getTally picks,
      ∃ c ∈ picks, c.fullName = t.fullName ∧ c.color = t.color :=
    fun t ht => hinv.source t ((hmem t).mp ht)
  have hpipe_entry : ∀ t ∈ getTally picks, '|' ∉ t.fullName.data := by
    intro t ht
    obtain ⟨c, hc, hname, -⟩ := hsource t ht
    rw [← hname]
    exact hp c hc
  refine ⟨rfl, ?_, ?_, ?_, ?_⟩
  · have hkeys : ((getTally picks).map entryKey).Nodup :=
      ((hperm.map entryKey).nodup_iff).mpr hinv.nodup
    have hfact : (getTally picks).map entryKey =
        ((getTally picks).map (fun t => (t.fullName, t.color))).map
          (fun p => tallyKey p.1 p.2) := by
      rw [List.map_map]
      rfl
    rw [hfact] at hkeys
    exact List.Nodup.of_map _ hkeys
  · intro t ht
    refine ⟨?_, hsource t ht⟩
    have hcnt := hinv.counts t ((hmem t).mp ht)
    rw [hcnt]
    apply List.countP_congr
    intro c hc
    simp only [beq_iff_eq, Bool.and_eq_true, decide_eq_true_eq]
    constructor
    · intro hkeq
      exact tallyKey_inj c.fullName c.color t.fullName t.color (hp c hc)
        (hpipe_entry t ht) hkeq
    · rintro ⟨hname, hcolor⟩
      rw [entryKey, hname, hcolor]
  · intro c hc
    obtain ⟨t, ht, hk⟩ := hinv.complete c hc
    have ht' : t ∈ getTally picks := (hmem t).mpr ht
    obtain ⟨hname, hcolor⟩ := tallyKey_inj c.fullName c.color t.fullName t.color
      (hp c hc) (hpipe_entry t ht') hk
    exact ⟨t, ht', hname.symm, hcolor.symm⟩
  · have hsorted := @List.sorted_mergeSort _ tallyLE tallyLE_trans tallyLE_total
      (picks.foldl tallyBump [])
    exact hsorted.imp (fun hab => (tallyLE_iff _ _).mp hab)

/-- Witness for the amended C7 at three concrete picks. -/
theorem canonical_export_spec_witness :
    generateCopyTextWithoutColor wTallyPicks =
      joinSep "\n" ((getTally wTallyPicks).map
        (fun t => toString t.count ++ " " ++ t.fullName)) ∧
    ((getTally wTallyPicks).map (fun t => (t.fullName, t.color))).Nodup ∧
    (∀ t ∈ getTally wTallyPicks,
      t.count = wTallyPicks.countP
        (fun c => c.fullName == t.fullName && c.color == t.color) ∧
      ∃ c ∈ wTallyPicks, c.fullName = t.fullName ∧ c.color = t.color) ∧
    (∀ c ∈ wTallyPicks,
      ∃ t ∈ getTally wTallyPicks, t.fullName = c.fullName ∧ t.color = c.color) ∧
    (getTally wTallyPicks).Pairwise
      (fun a b => b.count < a.count ∨ (a.count = b.count ∧ a.fullName ≤ b.fullName)) :=
  canonical_export_spec wTallyPicks (by decide)

/-- Counterexample to claim C7 as stated: the two distinct
(fullName, color) groups `("A|B", "C")` and `("A", "B|C")` share the
string key `"A|B|C"`, so the export collapses them into the single line
`"2 A|B"` instead of one line per group. -/
theorem canonical_export_collision_cex :
    generateCopyTextWithoutColor [pipeCardA, pipeCardB] = "2 A|B" ∧
    ([pipeCardA, pipeCardB].map (fun c => (c.fullName, c.color))).dedup.length = 2 ∧
    (getTally [pipeCardA, pipeCardB]).length = 1 := by
  have hfold : [pipeCardA, pipeCardB].foldl tallyBump [] =
      [{ count := 2, fullName := "A|B", color := "C" }] := by decide
  have htally : getTally [pipeCardA, pipeCardB] =
      [{ count := 2, fullName := "A|B", color := "C" }] := by
    unfold getTally
    rw [hfold]
    exact List.mergeSort_singleton _
  refine ⟨?_, by decide, by rw [htally]; rfl⟩
  unfold generateCopyTextWithoutColor
  rw [htally]
  rfl

end LorcanaDraft
